import Mathlib

/-!
Verification of the sphinx-cmd rm pipeline (sphinx_cmd/commands/rm.py):
a shallow embedding of the path model, the filesystem operations the code
performs, asset extraction, the asset index with include expansion, the
deletion engine and the empty-directory pruner, followed by theorems about
the frozen claims.

Paths model Python path strings: a flag for absolute paths plus the list of
components, so that os.path.dirname, os.path.normpath, os.path.join,
string truthiness and the os.sep count used for depth sorting are all
represented faithfully.
-/

set_option maxRecDepth 8000

namespace SphinxCmd

/-- A Python path string: absolute flag and slash-separated components. -/
structure Path where
  isAbs : Bool
  comps : List String
deriving DecidableEq, Repr

/-- os.path.dirname: drop the last component ("/a/b" to "/a", "a" to "", "/" to "/"). -/
def dirname (p : Path) : Path :=
  ⟨p.isAbs, p.comps.dropLast⟩

/-- Python string truthiness of a path: only the empty relative path "" is falsy. -/
def pyTruthy (p : Path) : Bool :=
  p.isAbs || !p.comps.isEmpty

/-- One step of os.path.normpath over a component, with the processed stack reversed. -/
def normStep (isAbs : Bool) (stack : List String) (c : String) : List String :=
  if c = "" ∨ c = "." then stack
  else if c = ".." then
    match stack with
    | [] => if isAbs then [] else [".."]
    | t :: rest => if t = ".." then c :: t :: rest else rest
  else c :: stack

/-- os.path.normpath: collapse "." and ".." components. -/
def normpath (p : Path) : Path :=
  ⟨p.isAbs, (p.comps.foldl (normStep p.isAbs) []).reverse⟩

/-- os.path.join of a base with one more path: an absolute second path wins. -/
def pjoin (base arg : Path) : Path :=
  if arg.isAbs then arg else ⟨base.isAbs, base.comps ++ arg.comps⟩

/-- str.endswith, computed over the characters. -/
def strEndsWith (s suffix : String) : Bool :=
  List.isSuffixOf suffix.data s.data

/-- path.endswith(".rst") on a path string: the last component carries the suffix. -/
def isRstPath (p : Path) : Bool :=
  match p.comps.getLast? with
  | some s => strEndsWith s ".rst"
  | none => false

/-- d.count(os.sep), the sort key of the pruner ("/" counts one, "" counts zero). -/
def depth (p : Path) : Nat :=
  if p.isAbs then max 1 p.comps.length else p.comps.length - 1

/-! Association lists standing for Python dicts (insertion-ordered, unique keys)
and lists standing for Python sets. -/

/-- dict lookup. -/
def dget {α : Type} : List (Path × α) → Path → Option α
  | [], _ => none
  | e :: rest, k => if e.1 = k then some e.2 else dget rest k

/-- dict.get with a default. -/
def dgetD {α : Type} (d : List (Path × α)) (k : Path) (v : α) : α :=
  (dget d k).getD v

/-- dict assignment: update in place, or append a new key at the end. -/
def dset {α : Type} : List (Path × α) → Path → α → List (Path × α)
  | [], k, v => [(k, v)]
  | e :: rest, k, v => if e.1 = k then (k, v) :: rest else e :: dset rest k v

/-- set.add on a list kept without duplicates, insertion ordered. -/
def addSet (l : List Path) (x : Path) : List Path :=
  if x ∈ l then l else l ++ [x]

/-- set.update: union the second set into the first. -/
def unionSet (l m : List Path) : List Path :=
  m.foldl addSet l

/-- defaultdict(list) append. -/
def dappend (g : List (Path × List Path)) (k : Path) (v : Path) : List (Path × List Path) :=
  dset g k (dgetD g k [] ++ [v])

/-! The document text model: the directive matcher is an external collaborator
(spec section 6), so a file's content is a list of lines where a directive
line carries its name and its already-stripped argument path. -/

/-- One line of a document: a directive marker or plain text. -/
inductive Line where
  | directiveLine (nm : String) (arg : Path)
  | textLine (s : String)
deriving DecidableEq, Repr

/-- pattern.findall for one directive name: the arguments of its lines, in order. -/
def findall (nm : String) (content : List Line) : List Path :=
  content.filterMap fun l =>
    match l with
    | .directiveLine n a => if n = nm then some a else none
    | .textLine _ => none

/-- The keys of DIRECTIVE_PATTERNS, in dict order. -/
def directiveNames : List String :=
  ["image", "figure", "include"]

/-! The filesystem: current working directory, files (absolute normalized path
with content, listed in the traversal order os.walk would produce) and
directories (absolute normalized paths). -/

structure FS where
  cwd : List String
  files : List (Path × List Line)
  dirs : List Path
deriving DecidableEq, Repr

/-- Resolve a path the way the OS resolves a relative path against the cwd
(os.path.abspath for lookups). -/
def FS.resolve (fs : FS) (p : Path) : Path :=
  if p.isAbs then normpath p else normpath ⟨true, fs.cwd ++ p.comps⟩

def FS.fileKeys (fs : FS) : List Path :=
  fs.files.map Prod.fst

/-- os.path.isfile. -/
def FS.isFile (fs : FS) (p : Path) : Bool :=
  decide (fs.resolve p ∈ fs.fileKeys)

/-- os.path.isdir. -/
def FS.isDir (fs : FS) (p : Path) : Bool :=
  decide (fs.resolve p ∈ fs.dirs)

/-- os.path.exists. -/
def FS.pexists (fs : FS) (p : Path) : Bool :=
  fs.isFile p || fs.isDir p

/-- open(file).read, for a file that exists. -/
def FS.readFile (fs : FS) (p : Path) : Option (List Line) :=
  dget fs.files (fs.resolve p)

/-- os.remove. -/
def FS.removeFile (fs : FS) (p : Path) : FS :=
  { fs with files := fs.files.filter fun e => e.1 ≠ fs.resolve p }

/-- os.rmdir. -/
def FS.removeDir (fs : FS) (p : Path) : FS :=
  { fs with dirs := fs.dirs.filter fun d => d ≠ fs.resolve p }

/-- not os.listdir(p): no file or directory sits directly inside p. -/
def FS.listdirEmpty (fs : FS) (p : Path) : Bool :=
  let q := fs.resolve p
  (fs.fileKeys ++ fs.dirs).all fun e => !(dirname e = q && e ≠ q)

/-! File discovery: find_rst_files. os.walk rejoins each found file onto the
given path, so a relative invocation path yields relative document paths. -/

/-- The path os.path.join(root, file) takes for a stored absolute file f found
while walking the (possibly relative) path p whose resolution is base. -/
def rejoin (base given f : Path) : Option Path :=
  if base.comps = f.comps.take base.comps.length ∧ base.comps.length < f.comps.length then
    some ⟨given.isAbs, given.comps ++ f.comps.drop base.comps.length⟩
  else none

/-- find_rst_files: a single .rst file, or every .rst file under a directory
in traversal order. -/
def find_rst_files (fs : FS) (p : Path) : List Path :=
  if fs.isFile p ∧ isRstPath p then [p]
  else
    let base := fs.resolve p
    fs.fileKeys.filterMap fun f =>
      match rejoin base p f with
      | some q => if isRstPath q then some q else none
      | none => none

/-! Asset extraction: extract_assets reads one file and returns the dict
from normalized asset path to the directive it was (last) found under. -/

/-- extract_assets: direct references of one document, path-normalized
relative to the document's own directory; missing or unreadable files give
an empty result. -/
def extract_assets (fs : FS) (file_path : Path) : List (Path × String) :=
  if !fs.pexists file_path || !fs.isFile file_path then []
  else
    match fs.readFile file_path with
    | none => []
    | some content =>
      directiveNames.foldl
        (fun acc nm =>
          (findall nm content).foldl
            (fun acc2 arg => dset acc2 (normpath (pjoin (dirname file_path) arg)) nm)
            acc)
        []

/-- Collect the key of one extracted entry into a set of paths. -/
def addFst (l : List Path) (ad : Path × String) : List Path :=
  addSet l ad.1

/-- The direct asset set of one document, in first-seen order. -/
def directOf (fs : FS) (file_path : Path) : List Path :=
  (extract_assets fs file_path).foldl addFst []

/-! The asset index: build_asset_index's three passes. -/

structure Index where
  asset_to_files : List (Path × List Path)
  file_to_assets : List (Path × List Path)
  asset_directive_map : List (Path × String)
  include_graph : List (Path × List Path)
deriving DecidableEq, Repr

def Index.empty : Index :=
  ⟨[], [], [], []⟩

/-- One extracted asset of the first pass: record its directive, a possible
include edge, and collect it into the document's direct set. -/
def pass1Asset (fs : FS) (rst : Path) (acc : Index × List Path) (ad : Path × String) :
    Index × List Path :=
  let st1 := { acc.1 with asset_directive_map := dset acc.1.asset_directive_map ad.1 ad.2 }
  let st2 :=
    if ad.2 = "include" ∧ fs.pexists ad.1 then
      { st1 with include_graph := dappend st1.include_graph rst ad.1 }
    else st1
  (st2, addFst acc.2 ad)

/-- First pass, one document: record its directive map entries, its direct
asset set and its include-graph edges (only include targets that exist on
disk become edges; all targets become direct assets). -/
def pass1Doc (fs : FS) (st : Index) (rst : Path) : Index :=
  let res := (extract_assets fs rst).foldl (pass1Asset fs rst) (st, [])
  { res.1 with file_to_assets := dset res.1.file_to_assets rst res.2 }

def pass1 (fs : FS) (rst_files : List Path) : Index :=
  rst_files.foldl (pass1Doc fs) Index.empty

/-- The mutable state of the second pass: the processed set and the growing
file_to_assets dict. -/
structure P2 where
  processed : List Path
  f2a : List (Path × List Path)
deriving DecidableEq, Repr

/-- One included file of the loop in process_includes: an already-processed
include is skipped entirely (the source's guard), otherwise it is processed
recursively and its assets are unioned in. -/
def p2Step (rec : P2 → Path → P2 × List Path) (acc : P2 × List Path) (inc : Path) :
    P2 × List Path :=
  if inc ∈ acc.1.processed then acc
  else
    let r := rec acc.1 inc
    (r.1, unionSet acc.2 r.2)

/-- process_includes, fuel-indexed: a processed file returns its current set
unchanged; otherwise the file is marked processed, every not-yet-processed
included file is processed recursively and its result unioned in, and the
file's entry is updated. -/
def process_includes (graph : List (Path × List Path)) :
    Nat → P2 → Path → P2 × List Path
  | 0, st, fp => (st, dgetD st.f2a fp [])
  | fuel + 1, st, fp =>
    if fp ∈ st.processed then (st, dgetD st.f2a fp [])
    else
      let st1 : P2 := ⟨st.processed ++ [fp], st.f2a⟩
      let res := (dgetD graph fp []).foldl
        (p2Step (process_includes graph fuel))
        (st1, dgetD st1.f2a fp [])
      (⟨res.1.processed, dset res.1.f2a fp res.2⟩, res.2)

/-- Fuel that covers every node the traversal can ever mark processed. -/
def pass2Fuel (rst_files : List Path) (st : Index) : Nat :=
  rst_files.length + (st.include_graph.map fun e => e.2.length).sum + 1

/-- Second pass: process_includes over every discovered document in order. -/
def pass2 (rst_files : List Path) (st : Index) : Index :=
  let fuel := pass2Fuel rst_files st
  let res := rst_files.foldl
    (fun p2 rst => (process_includes st.include_graph fuel p2 rst).1)
    ⟨[], st.file_to_assets⟩
  { st with file_to_assets := res.f2a }

/-- Third pass: invert file_to_assets into the asset_to_files reverse index. -/
def pass3 (st : Index) : Index :=
  { st with
    asset_to_files :=
      st.file_to_assets.foldl
        (fun a2f e => e.2.foldl (fun a2f asset => dset a2f asset (addSet (dgetD a2f asset []) e.1)) a2f)
        st.asset_to_files }

/-- build_asset_index. -/
def build_asset_index (fs : FS) (rst_files : List Path) : Index :=
  pass3 (pass2 rst_files (pass1 fs rst_files))

/-! The deletion engine: delete_unused_assets_and_pages. Removal events record
what the run removed (real mode) or printed as would-delete (dry mode), in
program order. -/

inductive Event where
  | rmAsset (directive : String) (p : Path)
  | rmPage (p : Path)
deriving DecidableEq, Repr

def Event.target : Event → Path
  | .rmAsset _ p => p
  | .rmPage p => p

structure DelState where
  fs : FS
  deleted_pages : List Path
  deleted_assets : List Path
  affected_dirs : List Path
  events : List Event
deriving DecidableEq, Repr

/-- The all_unique check: no asset of the set is referenced by more than one
document in the computed reverse index. -/
def allUnique (a2f : List (Path × List Path)) (assets : List Path) : Bool :=
  assets.all fun a => !((dgetD a2f a []).length > 1)

/-- One asset of a qualifying document: if it still exists it is removed
(or reported in dry mode); a missing asset is skipped silently. -/
def tryRemoveAsset (dmap : List (Path × String)) (dry : Bool) (st : DelState) (asset : Path) :
    DelState :=
  let d := dgetD dmap asset "asset"
  if st.fs.pexists asset then
    if dry then { st with events := st.events ++ [.rmAsset d asset] }
    else
      { st with
        affected_dirs := addSet st.affected_dirs (dirname asset),
        fs := st.fs.removeFile asset,
        deleted_assets := st.deleted_assets ++ [asset],
        events := st.events ++ [.rmAsset d asset] }
  else st

/-- The qualifying document's own file, removed after its assets. -/
def tryRemovePage (dry : Bool) (st : DelState) (rst : Path) : DelState :=
  if st.fs.pexists rst then
    if dry then { st with events := st.events ++ [.rmPage rst] }
    else
      { st with
        affected_dirs := addSet st.affected_dirs (dirname rst),
        fs := st.fs.removeFile rst,
        deleted_pages := st.deleted_pages ++ [rst],
        events := st.events ++ [.rmPage rst] }
  else st

/-- The whole deletion block for one qualifying document: assets first, then
the page itself. -/
def deleteDoc (dmap : List (Path × String)) (dry : Bool) (st : DelState) (rst : Path)
    (assets : List Path) : DelState :=
  tryRemovePage dry (assets.foldl (tryRemoveAsset dmap dry) st) rst

/-- One entry of file_to_assets: documents with no assets are skipped, a
document with a shared asset is retained, a qualifying document is deleted. -/
def engineStep (a2f : List (Path × List Path)) (dmap : List (Path × String)) (dry : Bool)
    (st : DelState) (e : Path × List Path) : DelState :=
  if e.2.isEmpty then st
  else if allUnique a2f e.2 then deleteDoc dmap dry st e.1 e.2
  else st

/-- delete_unused_assets_and_pages. -/
def delete_unused_assets_and_pages (idx : Index) (fs : FS) (dry : Bool) : DelState :=
  idx.file_to_assets.foldl
    (engineStep idx.asset_to_files idx.asset_directive_map dry)
    ⟨fs, [], [], [], []⟩

/-! The directory pruner: remove_empty_dirs. The ancestor-collecting while
loop of the source can fail to terminate (os.path.dirname is a fixpoint at
"/", which is truthy and exists), so the walk is fueled and returns none
exactly when the source loops forever. -/

/-- The while loop collecting parents of one affected directory: while the
parent path is truthy, exists and is not the original path, add it and step
up. Fuel exhaustion (only reachable at the "/" fixpoint) means divergence. -/
def climb (fs : FS) (orig : Path) : Nat → Path → List Path → Option (List Path)
  | 0, parent, acc =>
    if pyTruthy parent ∧ fs.pexists parent ∧ parent ≠ orig then none else some acc
  | fuel + 1, parent, acc =>
    if pyTruthy parent ∧ fs.pexists parent ∧ parent ≠ orig then
      climb fs orig fuel (dirname parent) (addSet acc parent)
    else some acc

/-- The loop over all affected directories, collecting the candidate set. -/
def addParents (fs : FS) (orig : Path) (dirs : List Path) : Option (List Path) :=
  dirs.foldl
    (fun acc d =>
      match acc with
      | none => none
      | some all => climb fs orig (d.comps.length + 1) (dirname d) all)
    (some dirs)

/-- Stable insert for the deepest-first order (a later-inserted element goes in
front of elements of equal depth, matching a stable sort of the original list). -/
def insDepth (x : Path) : List Path → List Path
  | [] => [x]
  | y :: ys => if depth x < depth y then y :: insDepth x ys else x :: y :: ys

/-- sorted(all_dirs, key depth, reverse): a stable deepest-first sort. -/
def sortDescByDepth : List Path → List Path
  | [] => []
  | x :: xs => insDepth x (sortDescByDepth xs)

/-- The candidate directories, deepest first, or none when the walk diverges. -/
def pruneCandidates (fs : FS) (orig : Path) (dirs : List Path) : Option (List Path) :=
  (addParents fs orig dirs).map sortDescByDepth

structure PruneResult where
  fs : FS
  deleted_dirs : List Path
  reported : List Path
deriving DecidableEq, Repr

/-- The main pass: each candidate that still exists, is a directory and is
empty is removed (or reported in dry mode). -/
def prunePass (fs : FS) (cands : List Path) (dry : Bool) : PruneResult :=
  cands.foldl
    (fun (r : PruneResult) d =>
      if !r.fs.pexists d || !r.fs.isDir d then r
      else if r.fs.listdirEmpty d then
        if dry then { r with reported := r.reported ++ [d] }
        else ⟨r.fs.removeDir d, r.deleted_dirs ++ [d], r.reported ++ [d]⟩
      else r)
    ⟨fs, [], []⟩

/-- The special-cased final removal of the original path itself. -/
def rootStep (r : PruneResult) (orig : Path) (dry : Bool) : PruneResult :=
  if r.fs.isDir orig ∧ r.fs.listdirEmpty orig then
    if dry then { r with reported := r.reported ++ [orig] }
    else ⟨r.fs.removeDir orig, r.deleted_dirs ++ [orig], r.reported ++ [orig]⟩
  else r

/-- remove_empty_dirs: none when the source's ancestor walk never terminates. -/
def remove_empty_dirs (fs : FS) (dirs : List Path) (orig : Path) (dry : Bool) :
    Option PruneResult :=
  (pruneCandidates fs orig dirs).map fun cands => rootStep (prunePass fs cands dry) orig dry

/-! The whole command: execute. -/

structure ExecResult where
  fs : FS
  deleted_pages : List Path
  deleted_assets : List Path
  deleted_dirs : List Path
  events : List Event
  reported_dirs : List Path
deriving DecidableEq, Repr

/-- execute(args): discovery, index, deletion, pruning. The pruner only runs
when some directory was affected, so a dry run never reaches it. none means
the source process never returns (the pruner's walk loops forever). -/
def execute (fs : FS) (path : Path) (dry : Bool) : Option ExecResult :=
  let original := fs.resolve path
  let rst := find_rst_files fs path
  if rst.isEmpty then some ⟨fs, [], [], [], [], []⟩
  else
    let idx := build_asset_index fs rst
    let st := delete_unused_assets_and_pages idx fs dry
    if st.affected_dirs.isEmpty then
      some ⟨st.fs, st.deleted_pages, st.deleted_assets, [], st.events, []⟩
    else
      match remove_empty_dirs st.fs st.affected_dirs original dry with
      | none => none
      | some pr =>
        some ⟨pr.fs, st.deleted_pages, st.deleted_assets, pr.deleted_dirs, st.events, pr.reported⟩

/-! Concrete input trees used by the claims' evaluations. -/

namespace ExB

/-- b.rst, scanned first, references x.png as an image. -/
def bRst : Path := ⟨true, ["r", "docs", "sub", "b.rst"]⟩

/-- a.rst, scanned second, includes b.rst. -/
def aRst : Path := ⟨true, ["r", "docs", "sub", "a.rst"]⟩

def xPng : Path := ⟨true, ["r", "docs", "sub", "x.png"]⟩

def subDir : Path := ⟨true, ["r", "docs", "sub"]⟩

def docsDir : Path := ⟨true, ["r", "docs"]⟩

/-- The tree: a.rst includes b.rst, b.rst references x.png, walk order puts
b.rst before a.rst. -/
def fs : FS :=
  { cwd := ["cw"],
    files :=
      [(bRst, [Line.directiveLine "image" ⟨false, ["x.png"]⟩]),
       (aRst, [Line.directiveLine "include" ⟨false, ["b.rst"]⟩]),
       (xPng, [])],
    dirs := [⟨true, []⟩, ⟨true, ["r"]⟩, docsDir, subDir] }

end ExB

namespace ExCyc

/-- a.rst: an image a.png and an include of b.rst. -/
def aRst : Path := ⟨true, ["d", "a.rst"]⟩

/-- b.rst: an image b.png and an include of a.rst (a two-document cycle). -/
def bRst : Path := ⟨true, ["d", "b.rst"]⟩

def aPng : Path := ⟨true, ["d", "a.png"]⟩

def bPng : Path := ⟨true, ["d", "b.png"]⟩

def fs : FS :=
  { cwd := ["cw"],
    files :=
      [(aRst, [Line.directiveLine "image" ⟨false, ["a.png"]⟩,
               Line.directiveLine "include" ⟨false, ["b.rst"]⟩]),
       (bRst, [Line.directiveLine "image" ⟨false, ["b.png"]⟩,
               Line.directiveLine "include" ⟨false, ["a.rst"]⟩])],
    dirs := [⟨true, []⟩, ⟨true, ["d"]⟩] }

end ExCyc

namespace ExInc

/-- a.rst includes b.rst; b.rst holds no directives at all. -/
def aRst : Path := ⟨true, ["d", "a.rst"]⟩

def bRst : Path := ⟨true, ["d", "b.rst"]⟩

def dDir : Path := ⟨true, ["d"]⟩

def fs : FS :=
  { cwd := ["cw"],
    files := [(aRst, [Line.directiveLine "include" ⟨false, ["b.rst"]⟩]), (bRst, [])],
    dirs := [⟨true, []⟩, dDir] }

def idx : Index :=
  build_asset_index fs [aRst, bRst]

end ExInc

namespace ExTwice

/-- c.rst and d.rst share s.png; e.rst includes d.rst; walk order d, c, e. -/
def dRst : Path := ⟨true, ["r", "docs", "sub", "d.rst"]⟩

def cRst : Path := ⟨true, ["r", "docs", "sub", "c.rst"]⟩

def eRst : Path := ⟨true, ["r", "docs", "sub", "e.rst"]⟩

def sPng : Path := ⟨true, ["r", "docs", "sub", "s.png"]⟩

def root : Path := ⟨true, ["r", "docs"]⟩

def fs : FS :=
  { cwd := ["cw"],
    files :=
      [(dRst, [Line.directiveLine "image" ⟨false, ["s.png"]⟩]),
       (cRst, [Line.directiveLine "image" ⟨false, ["s.png"]⟩]),
       (eRst, [Line.directiveLine "include" ⟨false, ["d.rst"]⟩]),
       (sPng, [])],
    dirs := [⟨true, []⟩, ⟨true, ["r"]⟩, root, ⟨true, ["r", "docs", "sub"]⟩] }

end ExTwice

namespace ExDry

/-- One page owning one image, both in sub below the invocation root. -/
def pRst : Path := ⟨true, ["r", "docs", "sub", "p.rst"]⟩

def imgPng : Path := ⟨true, ["r", "docs", "sub", "img.png"]⟩

def subDir : Path := ⟨true, ["r", "docs", "sub"]⟩

def root : Path := ⟨true, ["r", "docs"]⟩

def fs : FS :=
  { cwd := ["cw"],
    files := [(pRst, [Line.directiveLine "image" ⟨false, ["img.png"]⟩]), (imgPng, [])],
    dirs := [⟨true, []⟩, ⟨true, ["r"]⟩, root, subDir] }

end ExDry

namespace ExRel

/-- The same one-page tree, but the command is invoked with the relative
path "a/docs" while the cwd is /cw. -/
def pageRst : Path := ⟨true, ["cw", "a", "docs", "page.rst"]⟩

def imgPng : Path := ⟨true, ["cw", "a", "docs", "img.png"]⟩

def relPath : Path := ⟨false, ["a", "docs"]⟩

def relA : Path := ⟨false, ["a"]⟩

def fs : FS :=
  { cwd := ["cw"],
    files := [(pageRst, [Line.directiveLine "image" ⟨false, ["img.png"]⟩]), (imgPng, [])],
    dirs := [⟨true, []⟩, ⟨true, ["cw"]⟩, ⟨true, ["cw", "a"]⟩, ⟨true, ["cw", "a", "docs"]⟩] }

end ExRel

namespace ExPrune

/-- A chain of empty directories strictly below the root /r. -/
def fs : FS :=
  { cwd := ["cw"],
    files := [],
    dirs := [⟨true, []⟩, ⟨true, ["r"]⟩, ⟨true, ["r", "a"]⟩, ⟨true, ["r", "a", "b"]⟩,
             ⟨true, ["r", "a", "b", "c"]⟩] }

def root : Path := ⟨true, ["r"]⟩

def leaf : Path := ⟨true, ["r", "a", "b", "c"]⟩

end ExPrune

namespace ExGhost

/-- c.rst includes ghost.rst, which does not exist anywhere on disk. -/
def cRst : Path := ⟨true, ["d", "c.rst"]⟩

def ghost : Path := ⟨true, ["d", "ghost.rst"]⟩

def fs : FS :=
  { cwd := ["cw"],
    files := [(cRst, [Line.directiveLine "include" ⟨false, ["ghost.rst"]⟩])],
    dirs := [⟨true, []⟩, ⟨true, ["d"]⟩] }

end ExGhost

/-- The removal targets of a run's events, resolved against the starting
filesystem (the files the run touches, as on-disk paths). -/
def resolvedTargets (fs0 : FS) (st : DelState) : List Path :=
  st.events.map fun ev => fs0.resolve ev.target

/-- The simulation between a dry run and a real run started on the same
filesystem fs0: the dry state keeps fs0, the real state has removed exactly
the files its events name, and both runs have named the same on-disk
targets. -/
def DryRealSim (fs0 : FS) (std str : DelState) : Prop :=
  std.fs = fs0
  ∧ str.fs.cwd = fs0.cwd
  ∧ str.fs.dirs = fs0.dirs
  ∧ (∀ k, k ∈ str.fs.fileKeys ↔ (k ∈ fs0.fileKeys ∧ k ∉ resolvedTargets fs0 str))
  ∧ (∀ p, p ∈ resolvedTargets fs0 std ↔ p ∈ resolvedTargets fs0 str)

/-! Statement-level definitions for the pruner claims. -/

/-- q lies strictly below p in the tree: same kind of path, p is a proper
componentwise ancestor of q. -/
def strictlyBelow (p q : Path) : Prop :=
  q.isAbs = p.isAbs ∧ p.comps = q.comps.take p.comps.length ∧ p.comps.length < q.comps.length

instance (p q : Path) : Decidable (strictlyBelow p q) := by
  unfold strictlyBelow; infer_instance

/-- The chain of ancestors the pruner's walk visits from p upward: p itself,
then its parent, for n steps. -/
def ancList (p : Path) (n : Nat) : List Path :=
  (List.range n).map fun i => ⟨p.isAbs, p.comps.take (p.comps.length - i)⟩

/-! Basic lemmas about the set and dict helpers. -/

theorem mem_addSet {l : List Path} {x y : Path} : x ∈ addSet l y ↔ x = y ∨ x ∈ l := by
  unfold addSet
  split
  · constructor
    · exact fun h => Or.inr h
    · rintro (rfl | h)
      · assumption
      · assumption
  · simp [or_comm]

theorem subset_addSet (l : List Path) (y : Path) : l ⊆ addSet l y := by
  intro x hx; exact mem_addSet.mpr (Or.inr hx)

theorem nodup_addSet {l : List Path} (h : l.Nodup) (y : Path) : (addSet l y).Nodup := by
  unfold addSet
  split
  · exact h
  · next hy => simpa [List.nodup_append] using ⟨h, fun hmem => hy hmem⟩

theorem mem_foldl_addSet {m : List Path} :
    ∀ {l : List Path} {x : Path}, x ∈ m.foldl addSet l ↔ x ∈ l ∨ x ∈ m := by
  induction m with
  | nil => simp
  | cons a as ih =>
    intro l x
    simp only [List.foldl_cons, ih, mem_addSet, List.mem_cons]
    tauto

theorem mem_unionSet {l m : List Path} {x : Path} : x ∈ unionSet l m ↔ x ∈ l ∨ x ∈ m :=
  mem_foldl_addSet

theorem nodup_foldl_addSet {m : List Path} :
    ∀ {l : List Path}, l.Nodup → (m.foldl addSet l).Nodup := by
  induction m with
  | nil => exact fun h => h
  | cons a as ih => exact fun h => ih (nodup_addSet h a)

theorem dget_dset_self {α : Type} (d : List (Path × α)) (k : Path) (v : α) :
    dget (dset d k v) k = some v := by
  induction d with
  | nil => simp [dset, dget]
  | cons e rest ih =>
    unfold dset
    by_cases h : e.1 = k
    · simp [h, dget]
    · simp [h, dget, ih]

theorem dget_dset_ne {α : Type} (d : List (Path × α)) (k k' : Path) (v : α) (h : k' ≠ k) :
    dget (dset d k v) k' = dget d k' := by
  induction d with
  | nil => simp [dset, dget, Ne.symm h]
  | cons e rest ih =>
    by_cases he : e.1 = k
    · simp [dset, he, dget, Ne.symm h]
    · simp [dset, he, dget, ih]

theorem dgetD_dset_self {α : Type} (d : List (Path × α)) (k : Path) (v w : α) :
    dgetD (dset d k v) k w = v := by
  simp [dgetD, dget_dset_self]

theorem dgetD_dset_ne {α : Type} (d : List (Path × α)) (k k' : Path) (v w : α) (h : k' ≠ k) :
    dgetD (dset d k v) k' w = dgetD d k' w := by
  simp [dgetD, dget_dset_ne _ _ _ _ h]

/-! Lemmas about the index construction, leading to the guarantee that a
document's final asset set contains all of its direct references. -/

theorem subset_foldl_addFst (ads : List (Path × String)) :
    ∀ l0 : List Path, l0 ⊆ ads.foldl addFst l0 := by
  induction ads with
  | nil => intro l0; simp
  | cons a as ih =>
    intro l0 x hx
    exact ih (addFst l0 a) (subset_addSet _ _ hx)

theorem mem_foldl_addFst {p : Path} {v : String} :
    ∀ (ads : List (Path × String)) (l0 : List Path), (p, v) ∈ ads →
      p ∈ ads.foldl addFst l0 := by
  intro ads
  induction ads with
  | nil => intro l0 h; cases h
  | cons a as ih =>
    intro l0 h
    rcases List.mem_cons.mp h with h | h
    · have hp : p ∈ addFst l0 a := by
        rw [← h]; exact mem_addSet.mpr (Or.inl rfl)
      exact subset_foldl_addFst as (addFst l0 a) hp
    · exact ih (addFst l0 a) h

theorem mem_directOf {fs : FS} {d p : Path} {v : String}
    (h : (p, v) ∈ extract_assets fs d) : p ∈ directOf fs d :=
  mem_foldl_addFst (extract_assets fs d) [] h

theorem pass1Asset_fst_f2a (fs : FS) (rst : Path) (acc : Index × List Path)
    (ad : Path × String) :
    (pass1Asset fs rst acc ad).1.file_to_assets = acc.1.file_to_assets := by
  unfold pass1Asset
  split <;> rfl

theorem foldl_pass1Asset (fs : FS) (rst : Path) :
    ∀ (ads : List (Path × String)) (st0 : Index) (l0 : List Path),
      (ads.foldl (pass1Asset fs rst) (st0, l0)).1.file_to_assets = st0.file_to_assets
      ∧ (ads.foldl (pass1Asset fs rst) (st0, l0)).2 = ads.foldl addFst l0 := by
  intro ads
  induction ads with
  | nil => intro st0 l0; exact ⟨rfl, rfl⟩
  | cons a as ih =>
    intro st0 l0
    have h1 := pass1Asset_fst_f2a fs rst (st0, l0) a
    have h2 : (pass1Asset fs rst (st0, l0) a).2 = addFst l0 a := rfl
    have := ih (pass1Asset fs rst (st0, l0) a).1 (pass1Asset fs rst (st0, l0) a).2
    constructor
    · simpa [h1] using this.1
    · simpa [h2] using this.2

theorem pass1Doc_f2a (fs : FS) (st : Index) (rst : Path) :
    (pass1Doc fs st rst).file_to_assets = dset st.file_to_assets rst (directOf fs rst) := by
  unfold pass1Doc directOf
  have h := foldl_pass1Asset fs rst (extract_assets fs rst) st []
  simp [h.1, h.2]

theorem pass1_fold_preserves (fs : FS) :
    ∀ (rsts : List Path) (st : Index) (d : Path), d ∉ rsts →
      dget (rsts.foldl (pass1Doc fs) st).file_to_assets d = dget st.file_to_assets d := by
  intro rsts
  induction rsts with
  | nil => intro st d _; rfl
  | cons r rs ih =>
    intro st d hd
    have hdr : d ≠ r := fun h => hd (h ▸ List.mem_cons_self r rs)
    have hds : d ∉ rs := fun h => hd (List.mem_cons_of_mem r h)
    calc dget ((r :: rs).foldl (pass1Doc fs) st).file_to_assets d
        = dget (rs.foldl (pass1Doc fs) (pass1Doc fs st r)).file_to_assets d := rfl
      _ = dget (pass1Doc fs st r).file_to_assets d := ih (pass1Doc fs st r) d hds
      _ = dget st.file_to_assets d := by
          rw [pass1Doc_f2a]; exact dget_dset_ne _ _ _ _ hdr

theorem pass1_fold_f2a (fs : FS) :
    ∀ (rsts : List Path) (st : Index) (d : Path), d ∈ rsts →
      dget (rsts.foldl (pass1Doc fs) st).file_to_assets d = some (directOf fs d) := by
  intro rsts
  induction rsts with
  | nil => intro st d h; cases h
  | cons r rs ih =>
    intro st d hd
    by_cases hds : d ∈ rs
    · exact ih (pass1Doc fs st r) d hds
    · have hdr : d = r := by
        rcases List.mem_cons.mp hd with h | h
        · exact h
        · exact absurd h hds
      subst hdr
      calc dget ((d :: rs).foldl (pass1Doc fs) st).file_to_assets d
          = dget (rs.foldl (pass1Doc fs) (pass1Doc fs st d)).file_to_assets d := rfl
        _ = dget (pass1Doc fs st d).file_to_assets d := pass1_fold_preserves fs rs _ d hds
        _ = some (directOf fs d) := by rw [pass1Doc_f2a]; exact dget_dset_self _ _ _

/-- The inner loop of process_includes preserves: the given processed set,
the entries of processed keys, growth of every entry, and a set already below
the accumulated assets. -/
theorem p2_fold_aux (graph : List (Path × List Path)) (n : Nat)
    (P : List Path) (F : List (Path × List Path)) (S : List Path)
    (hrec : ∀ (st : P2) (fp : Path),
      st.processed ⊆ (process_includes graph n st fp).1.processed
      ∧ (∀ k, k ∈ st.processed →
          dget (process_includes graph n st fp).1.f2a k = dget st.f2a k)
      ∧ (∀ k (x : Path), x ∈ dgetD st.f2a k [] →
          x ∈ dgetD (process_includes graph n st fp).1.f2a k [])) :
    ∀ (incs : List Path) (p2 : P2) (l : List Path),
      P ⊆ p2.processed →
      (∀ k, k ∈ P → dget p2.f2a k = dget F k) →
      (∀ k (x : Path), x ∈ dgetD F k [] → x ∈ dgetD p2.f2a k []) →
      S ⊆ l →
      P ⊆ (incs.foldl (p2Step (process_includes graph n)) (p2, l)).1.processed
      ∧ (∀ k, k ∈ P →
          dget (incs.foldl (p2Step (process_includes graph n)) (p2, l)).1.f2a k = dget F k)
      ∧ (∀ k (x : Path), x ∈ dgetD F k [] →
          x ∈ dgetD (incs.foldl (p2Step (process_includes graph n)) (p2, l)).1.f2a k [])
      ∧ S ⊆ (incs.foldl (p2Step (process_includes graph n)) (p2, l)).2 := by
  intro incs
  induction incs with
  | nil => intro p2 l h1 h2 h3 h4; exact ⟨h1, h2, h3, h4⟩
  | cons inc incs ih =>
    intro p2 l h1 h2 h3 h4
    by_cases hin : inc ∈ p2.processed
    · have hstep : p2Step (process_includes graph n) (p2, l) inc = (p2, l) := by
        unfold p2Step; simp [hin]
      rw [List.foldl_cons, hstep]
      exact ih p2 l h1 h2 h3 h4
    · have hstep : p2Step (process_includes graph n) (p2, l) inc
          = ((process_includes graph n p2 inc).1,
             unionSet l (process_includes graph n p2 inc).2) := by
        unfold p2Step; simp [hin]
      rw [List.foldl_cons, hstep]
      obtain ⟨ha, hb, hc⟩ := hrec p2 inc
      refine ih _ _ (fun k hk => ha (h1 hk)) (fun k hk => ?_) (fun k x hx => hc k x (h3 k x hx)) ?_
      · rw [hb k (h1 hk)]; exact h2 k hk
      · intro x hx; exact mem_unionSet.mpr (Or.inl (h4 hx))

/-- process_includes only grows the processed set, never changes a processed
key's entry, and only grows every entry. -/
theorem p2_master (graph : List (Path × List Path)) :
    ∀ (fuel : Nat) (st : P2) (fp : Path),
      st.processed ⊆ (process_includes graph fuel st fp).1.processed
      ∧ (∀ k, k ∈ st.processed →
          dget (process_includes graph fuel st fp).1.f2a k = dget st.f2a k)
      ∧ (∀ k (x : Path), x ∈ dgetD st.f2a k [] →
          x ∈ dgetD (process_includes graph fuel st fp).1.f2a k []) := by
  intro fuel
  induction fuel with
  | zero =>
    intro st fp
    exact ⟨fun _ h => h, fun _ _ => rfl, fun _ _ h => h⟩
  | succ n ih =>
    intro st fp
    by_cases hfp : fp ∈ st.processed
    · have : process_includes graph (n + 1) st fp = (st, dgetD st.f2a fp []) := by
        unfold process_includes; simp [hfp]
      rw [this]
      exact ⟨fun _ h => h, fun _ _ => rfl, fun _ _ h => h⟩
    · have hunf : process_includes graph (n + 1) st fp
          = (⟨((dgetD graph fp []).foldl (p2Step (process_includes graph n))
                (⟨st.processed ++ [fp], st.f2a⟩, dgetD st.f2a fp [])).1.processed,
              dset ((dgetD graph fp []).foldl (p2Step (process_includes graph n))
                (⟨st.processed ++ [fp], st.f2a⟩, dgetD st.f2a fp [])).1.f2a fp
                ((dgetD graph fp []).foldl (p2Step (process_includes graph n))
                  (⟨st.processed ++ [fp], st.f2a⟩, dgetD st.f2a fp [])).2⟩,
             ((dgetD graph fp []).foldl (p2Step (process_includes graph n))
                (⟨st.processed ++ [fp], st.f2a⟩, dgetD st.f2a fp [])).2) := by
        unfold process_includes; simp [hfp]
      obtain ⟨ha, hb, hc, hd⟩ := p2_fold_aux graph n (st.processed ++ [fp]) st.f2a
        (dgetD st.f2a fp []) ih (dgetD graph fp [])
        ⟨st.processed ++ [fp], st.f2a⟩ (dgetD st.f2a fp [])
        (fun _ h => h) (fun _ _ => rfl) (fun _ _ h => h) (fun _ h => h)
      rw [hunf]
      refine ⟨?_, ?_, ?_⟩
      · intro k hk
        exact ha (List.mem_append_left _ hk)
      · intro k hk
        have hkfp : k ≠ fp := fun h => hfp (h ▸ hk)
        rw [dget_dset_ne _ _ _ _ hkfp]
        exact hb k (List.mem_append_left _ hk)
      · intro k x hx
        by_cases hkfp : k = fp
        · subst hkfp
          rw [dgetD_dset_self]
          exact hd hx
        · rw [dgetD_dset_ne _ _ _ _ _ hkfp]
          exact hc k x hx

/-- The whole second pass only grows every file's entry. -/
theorem pass2_fold_mono (graph : List (Path × List Path)) (fuel : Nat) :
    ∀ (rsts : List Path) (p2 : P2) (k x : Path), x ∈ dgetD p2.f2a k [] →
      x ∈ dgetD (rsts.foldl (fun q r => (process_includes graph fuel q r).1) p2).f2a k [] := by
  intro rsts
  induction rsts with
  | nil => intro p2 k x hx; exact hx
  | cons r rs ih =>
    intro p2 k x hx
    exact ih _ k x ((p2_master graph fuel p2 r).2.2 k x hx)

/-- After build_asset_index, a scanned document's entry contains its whole
direct asset set. -/
theorem build_supset_direct (fs : FS) (rsts : List Path) (d x : Path)
    (hd : d ∈ rsts) (hx : x ∈ directOf fs d) :
    x ∈ dgetD (build_asset_index fs rsts).file_to_assets d [] := by
  have hp3 : (pass3 (pass2 rsts (pass1 fs rsts))).file_to_assets
      = (pass2 rsts (pass1 fs rsts)).file_to_assets := rfl
  unfold build_asset_index
  rw [hp3]
  unfold pass2
  have h1 : dgetD (⟨[], (pass1 fs rsts).file_to_assets⟩ : P2).f2a d [] = directOf fs d := by
    show dgetD (pass1 fs rsts).file_to_assets d [] = directOf fs d
    unfold pass1
    simp [dgetD, pass1_fold_f2a fs rsts Index.empty d hd]
  exact pass2_fold_mono _ _ rsts _ d x (h1 ▸ hx)

/-! Lemmas about the filesystem primitives. -/

theorem resolve_congr {fs fs' : FS} (h : fs'.cwd = fs.cwd) (p : Path) :
    fs'.resolve p = fs.resolve p := by
  unfold FS.resolve; rw [h]

theorem removeFile_cwd (fs : FS) (p : Path) : (fs.removeFile p).cwd = fs.cwd := rfl

theorem removeFile_dirs (fs : FS) (p : Path) : (fs.removeFile p).dirs = fs.dirs := rfl

theorem mem_fileKeys_removeFile {fs : FS} {p k : Path} :
    k ∈ (fs.removeFile p).fileKeys ↔ k ∈ fs.fileKeys ∧ k ≠ fs.resolve p := by
  unfold FS.removeFile FS.fileKeys
  simp only [List.map_map, List.mem_map, List.mem_filter, decide_eq_true_eq]
  constructor
  · rintro ⟨e, ⟨he, hpred⟩, rfl⟩
    exact ⟨⟨e, he, rfl⟩, hpred⟩
  · rintro ⟨⟨e, he, rfl⟩, hne⟩
    exact ⟨e, ⟨he, hne⟩, rfl⟩

theorem isFile_removeFile_self (fs : FS) (p : Path) :
    (fs.removeFile p).isFile p = false := by
  unfold FS.isFile
  rw [resolve_congr (removeFile_cwd fs p)]
  simp [mem_fileKeys_removeFile]

theorem isFile_false_of_shape {fs fs' : FS} (hc : fs'.cwd = fs.cwd)
    (hk : ∀ k, k ∈ fs'.fileKeys → k ∈ fs.fileKeys) {x : Path}
    (h : fs.isFile x = false) : fs'.isFile x = false := by
  unfold FS.isFile at *
  rw [resolve_congr hc]
  simp only [decide_eq_false_iff_not] at h ⊢
  exact fun hmem => h (hk _ hmem)

theorem pexists_false_of_shape {fs fs' : FS} (hc : fs'.cwd = fs.cwd)
    (hd : fs'.dirs = fs.dirs) (hk : ∀ k, k ∈ fs'.fileKeys → k ∈ fs.fileKeys) {x : Path}
    (h : fs.pexists x = false) : fs'.pexists x = false := by
  unfold FS.pexists at *
  rcases Bool.or_eq_false_iff.mp h with ⟨h1, h2⟩
  rw [Bool.or_eq_false_iff]
  refine ⟨isFile_false_of_shape hc hk h1, ?_⟩
  unfold FS.isDir at *
  rw [resolve_congr hc, hd]
  exact h2

/-! Lemmas about the deletion engine, one step at a time. -/

theorem tra_not_exists {dmap : List (Path × String)} {dry : Bool} {st : DelState} {a : Path}
    (h : st.fs.pexists a = false) : tryRemoveAsset dmap dry st a = st := by
  unfold tryRemoveAsset; simp [h]

theorem tra_cwd (dmap : List (Path × String)) (dry : Bool) (st : DelState) (a : Path) :
    (tryRemoveAsset dmap dry st a).fs.cwd = st.fs.cwd := by
  unfold tryRemoveAsset; split_ifs <;> rfl

theorem tra_dirs (dmap : List (Path × String)) (dry : Bool) (st : DelState) (a : Path) :
    (tryRemoveAsset dmap dry st a).fs.dirs = st.fs.dirs := by
  unfold tryRemoveAsset; split_ifs <;> rfl

theorem tra_pages (dmap : List (Path × String)) (dry : Bool) (st : DelState) (a : Path) :
    (tryRemoveAsset dmap dry st a).deleted_pages = st.deleted_pages := by
  unfold tryRemoveAsset; split_ifs <;> rfl

theorem tra_keys_subset (dmap : List (Path × String)) (dry : Bool) (st : DelState) (a : Path) :
    ∀ k, k ∈ (tryRemoveAsset dmap dry st a).fs.fileKeys → k ∈ st.fs.fileKeys := by
  unfold tryRemoveAsset
  split_ifs <;> intro k hk
  · exact hk
  · exact (mem_fileKeys_removeFile.mp hk).1
  · exact hk

theorem tra_assets_mem {dmap : List (Path × String)} {dry : Bool} {st : DelState}
    {a x : Path} (h : x ∈ (tryRemoveAsset dmap dry st a).deleted_assets) :
    x ∈ st.deleted_assets ∨ x = a := by
  revert h
  unfold tryRemoveAsset
  split_ifs <;> intro h
  · exact Or.inl h
  · rcases List.mem_append.mp h with h | h
    · exact Or.inl h
    · exact Or.inr (List.mem_singleton.mp h)
  · exact Or.inl h

theorem trp_not_exists {dry : Bool} {st : DelState} {rst : Path}
    (h : st.fs.pexists rst = false) : tryRemovePage dry st rst = st := by
  unfold tryRemovePage; simp [h]

theorem trp_cwd (dry : Bool) (st : DelState) (rst : Path) :
    (tryRemovePage dry st rst).fs.cwd = st.fs.cwd := by
  unfold tryRemovePage; split_ifs <;> rfl

theorem trp_dirs (dry : Bool) (st : DelState) (rst : Path) :
    (tryRemovePage dry st rst).fs.dirs = st.fs.dirs := by
  unfold tryRemovePage; split_ifs <;> rfl

theorem trp_assets (dry : Bool) (st : DelState) (rst : Path) :
    (tryRemovePage dry st rst).deleted_assets = st.deleted_assets := by
  unfold tryRemovePage; split_ifs <;> rfl

theorem trp_keys_subset (dry : Bool) (st : DelState) (rst : Path) :
    ∀ k, k ∈ (tryRemovePage dry st rst).fs.fileKeys → k ∈ st.fs.fileKeys := by
  unfold tryRemovePage
  split_ifs <;> intro k hk
  · exact hk
  · exact (mem_fileKeys_removeFile.mp hk).1
  · exact hk

theorem trp_pages_mem {dry : Bool} {st : DelState} {rst x : Path}
    (h : x ∈ (tryRemovePage dry st rst).deleted_pages) :
    x ∈ st.deleted_pages ∨ x = rst := by
  revert h
  unfold tryRemovePage
  split_ifs <;> intro h
  · exact Or.inl h
  · rcases List.mem_append.mp h with h | h
    · exact Or.inl h
    · exact Or.inr (List.mem_singleton.mp h)
  · exact Or.inl h

theorem trp_isFile_self (st : DelState) (rst : Path) :
    (tryRemovePage false st rst).fs.isFile rst = false := by
  unfold tryRemovePage
  by_cases h : st.fs.pexists rst = true
  · simp only [h, if_true, Bool.false_eq_true, if_false]
    exact isFile_removeFile_self st.fs rst
  · simp only [h, if_false]
    have hp : st.fs.pexists rst = false := by simpa using h
    exact (Bool.or_eq_false_iff.mp hp).1

/-! The asset loop of one qualifying document. -/

theorem fold_tra_cwd (dmap : List (Path × String)) (dry : Bool) :
    ∀ (assets : List Path) (st : DelState),
      ((assets.foldl (tryRemoveAsset dmap dry) st)).fs.cwd = st.fs.cwd := by
  intro assets
  induction assets with
  | nil => intro st; rfl
  | cons a as ih => intro st; rw [List.foldl_cons, ih, tra_cwd]

theorem fold_tra_dirs (dmap : List (Path × String)) (dry : Bool) :
    ∀ (assets : List Path) (st : DelState),
      ((assets.foldl (tryRemoveAsset dmap dry) st)).fs.dirs = st.fs.dirs := by
  intro assets
  induction assets with
  | nil => intro st; rfl
  | cons a as ih => intro st; rw [List.foldl_cons, ih, tra_dirs]

theorem fold_tra_pages (dmap : List (Path × String)) (dry : Bool) :
    ∀ (assets : List Path) (st : DelState),
      ((assets.foldl (tryRemoveAsset dmap dry) st)).deleted_pages = st.deleted_pages := by
  intro assets
  induction assets with
  | nil => intro st; rfl
  | cons a as ih => intro st; rw [List.foldl_cons, ih, tra_pages]

theorem fold_tra_keys_subset (dmap : List (Path × String)) (dry : Bool) :
    ∀ (assets : List Path) (st : DelState) (k : Path),
      k ∈ ((assets.foldl (tryRemoveAsset dmap dry) st)).fs.fileKeys → k ∈ st.fs.fileKeys := by
  intro assets
  induction assets with
  | nil => intro st k hk; exact hk
  | cons a as ih =>
    intro st k hk
    exact tra_keys_subset dmap dry st a k (ih _ k hk)

theorem fold_tra_assets_mem (dmap : List (Path × String)) (dry : Bool) :
    ∀ (assets : List Path) (st : DelState) (x : Path),
      x ∈ ((assets.foldl (tryRemoveAsset dmap dry) st)).deleted_assets →
      x ∈ st.deleted_assets ∨ x ∈ assets := by
  intro assets
  induction assets with
  | nil => intro st x hx; exact Or.inl hx
  | cons a as ih =>
    intro st x hx
    rcases ih _ x hx with hx | hx
    · rcases tra_assets_mem hx with hx | hx
      · exact Or.inl hx
      · exact Or.inr (hx ▸ List.mem_cons_self a as)
    · exact Or.inr (List.mem_cons_of_mem a hx)

/-! deleteDoc and engineStep. -/

theorem deleteDoc_cwd (dmap : List (Path × String)) (dry : Bool) (st : DelState)
    (rst : Path) (assets : List Path) :
    (deleteDoc dmap dry st rst assets).fs.cwd = st.fs.cwd := by
  unfold deleteDoc; rw [trp_cwd, fold_tra_cwd]

theorem deleteDoc_dirs (dmap : List (Path × String)) (dry : Bool) (st : DelState)
    (rst : Path) (assets : List Path) :
    (deleteDoc dmap dry st rst assets).fs.dirs = st.fs.dirs := by
  unfold deleteDoc; rw [trp_dirs, fold_tra_dirs]

theorem deleteDoc_keys_subset (dmap : List (Path × String)) (dry : Bool) (st : DelState)
    (rst : Path) (assets : List Path) :
    ∀ k, k ∈ (deleteDoc dmap dry st rst assets).fs.fileKeys → k ∈ st.fs.fileKeys := by
  unfold deleteDoc
  intro k hk
  exact fold_tra_keys_subset dmap dry assets st k (trp_keys_subset dry _ rst k hk)

theorem deleteDoc_assets_mem {dmap : List (Path × String)} {dry : Bool} {st : DelState}
    {rst x : Path} {assets : List Path}
    (h : x ∈ (deleteDoc dmap dry st rst assets).deleted_assets) :
    x ∈ st.deleted_assets ∨ x ∈ assets := by
  unfold deleteDoc at h
  rw [trp_assets] at h
  exact fold_tra_assets_mem dmap dry assets st x h

theorem deleteDoc_pages_mem {dmap : List (Path × String)} {dry : Bool} {st : DelState}
    {rst x : Path} {assets : List Path}
    (h : x ∈ (deleteDoc dmap dry st rst assets).deleted_pages) :
    x ∈ st.deleted_pages ∨ x = rst := by
  unfold deleteDoc at h
  rcases trp_pages_mem h with h | h
  · rw [fold_tra_pages] at h
    exact Or.inl h
  · exact Or.inr h

theorem deleteDoc_isFile_self (dmap : List (Path × String)) (st : DelState)
    (rst : Path) (assets : List Path) :
    (deleteDoc dmap false st rst assets).fs.isFile rst = false := by
  unfold deleteDoc
  exact trp_isFile_self _ rst

theorem engineStep_cwd (a2f : List (Path × List Path)) (dmap : List (Path × String))
    (dry : Bool) (st : DelState) (e : Path × List Path) :
    (engineStep a2f dmap dry st e).fs.cwd = st.fs.cwd := by
  unfold engineStep
  split_ifs <;> first | rfl | exact deleteDoc_cwd _ _ _ _ _

theorem engineStep_dirs (a2f : List (Path × List Path)) (dmap : List (Path × String))
    (dry : Bool) (st : DelState) (e : Path × List Path) :
    (engineStep a2f dmap dry st e).fs.dirs = st.fs.dirs := by
  unfold engineStep
  split_ifs <;> first | rfl | exact deleteDoc_dirs _ _ _ _ _

theorem engineStep_keys_subset (a2f : List (Path × List Path)) (dmap : List (Path × String))
    (dry : Bool) (st : DelState) (e : Path × List Path) :
    ∀ k, k ∈ (engineStep a2f dmap dry st e).fs.fileKeys → k ∈ st.fs.fileKeys := by
  unfold engineStep
  split_ifs <;> intro k hk
  · exact hk
  · exact deleteDoc_keys_subset _ _ _ _ _ k hk
  · exact hk

theorem engineStep_assets_mem {a2f : List (Path × List Path)} {dmap : List (Path × String)}
    {dry : Bool} {st : DelState} {e : Path × List Path} {x : Path}
    (h : x ∈ (engineStep a2f dmap dry st e).deleted_assets) :
    x ∈ st.deleted_assets ∨ (x ∈ e.2 ∧ allUnique a2f e.2 = true ∧ e.2 ≠ []) := by
  revert h
  unfold engineStep
  split_ifs with h1 h2 <;> intro h
  · exact Or.inl h
  · rcases deleteDoc_assets_mem h with h | h
    · exact Or.inl h
    · exact Or.inr ⟨h, h2, fun hnil => by simp [hnil] at h1⟩
  · exact Or.inl h

theorem engineStep_pages_mem {a2f : List (Path × List Path)} {dmap : List (Path × String)}
    {dry : Bool} {st : DelState} {e : Path × List Path} {x : Path}
    (h : x ∈ (engineStep a2f dmap dry st e).deleted_pages) :
    x ∈ st.deleted_pages ∨ (x = e.1 ∧ allUnique a2f e.2 = true ∧ e.2 ≠ []) := by
  revert h
  unfold engineStep
  split_ifs with h1 h2 <;> intro h
  · exact Or.inl h
  · rcases deleteDoc_pages_mem h with h | h
    · exact Or.inl h
    · exact Or.inr ⟨h, h2, fun hnil => by simp [hnil] at h1⟩
  · exact Or.inl h

theorem engineStep_isFile_false {a2f : List (Path × List Path)} {dmap : List (Path × String)}
    {dry : Bool} {st : DelState} {e : Path × List Path} {x : Path}
    (h : st.fs.isFile x = false) : (engineStep a2f dmap dry st e).fs.isFile x = false :=
  isFile_false_of_shape (engineStep_cwd a2f dmap dry st e) (engineStep_keys_subset a2f dmap dry st e) h

theorem engineStep_self (a2f : List (Path × List Path)) (dmap : List (Path × String))
    (st : DelState) (e : Path × List Path) (hne : ¬ e.2.isEmpty = true)
    (hu : allUnique a2f e.2 = true) :
    (engineStep a2f dmap false st e).fs.isFile e.1 = false := by
  unfold engineStep
  rw [if_neg hne, if_pos hu]
  exact deleteDoc_isFile_self dmap st e.1 e.2

/-! The engine over the whole entry list. -/

theorem engine_fold_assets_mem {a2f : List (Path × List Path)} {dmap : List (Path × String)}
    {dry : Bool} :
    ∀ (entries : List (Path × List Path)) (st : DelState) (x : Path),
      x ∈ (entries.foldl (engineStep a2f dmap dry) st).deleted_assets →
      x ∈ st.deleted_assets ∨ ∃ e ∈ entries, x ∈ e.2 ∧ allUnique a2f e.2 = true := by
  intro entries
  induction entries with
  | nil => intro st x hx; exact Or.inl hx
  | cons e es ih =>
    intro st x hx
    rcases ih _ x hx with hx | ⟨e', he', hx⟩
    · rcases engineStep_assets_mem hx with hx | ⟨h1, h2, _⟩
      · exact Or.inl hx
      · exact Or.inr ⟨e, List.mem_cons_self e es, h1, h2⟩
    · exact Or.inr ⟨e', List.mem_cons_of_mem e he', hx⟩

theorem engine_fold_pages_mem {a2f : List (Path × List Path)} {dmap : List (Path × String)}
    {dry : Bool} :
    ∀ (entries : List (Path × List Path)) (st : DelState) (x : Path),
      x ∈ (entries.foldl (engineStep a2f dmap dry) st).deleted_pages →
      x ∈ st.deleted_pages
      ∨ ∃ e ∈ entries, x = e.1 ∧ allUnique a2f e.2 = true ∧ e.2 ≠ [] := by
  intro entries
  induction entries with
  | nil => intro st x hx; exact Or.inl hx
  | cons e es ih =>
    intro st x hx
    rcases ih _ x hx with hx | ⟨e', he', hx⟩
    · rcases engineStep_pages_mem hx with hx | ⟨h1, h2, h3⟩
      · exact Or.inl hx
      · exact Or.inr ⟨e, List.mem_cons_self e es, h1, h2, h3⟩
    · exact Or.inr ⟨e', List.mem_cons_of_mem e he', hx⟩

theorem engine_fold_isFile_false {a2f : List (Path × List Path)} {dmap : List (Path × String)}
    {dry : Bool} :
    ∀ (entries : List (Path × List Path)) (st : DelState) (x : Path),
      st.fs.isFile x = false →
      (entries.foldl (engineStep a2f dmap dry) st).fs.isFile x = false := by
  intro entries
  induction entries with
  | nil => intro st x hx; exact hx
  | cons e es ih => intro st x hx; exact ih _ x (engineStep_isFile_false hx)

theorem engine_fold_isFile_entry {a2f : List (Path × List Path)} {dmap : List (Path × String)} :
    ∀ (entries : List (Path × List Path)) (st : DelState) (e : Path × List Path),
      e ∈ entries → e.2 ≠ [] → allUnique a2f e.2 = true →
      (entries.foldl (engineStep a2f dmap false) st).fs.isFile e.1 = false := by
  intro entries
  induction entries with
  | nil => intro st e he; cases he
  | cons e0 es ih =>
    intro st e he hne hu
    rcases List.mem_cons.mp he with he | he
    · subst he
      refine engine_fold_isFile_false es _ e.1 ?_
      exact engineStep_self a2f dmap st e (by simpa using hne) hu
    · exact ih _ e he hne hu

theorem allUnique_mem {a2f : List (Path × List Path)} {as : List Path} {a : Path}
    (hu : allUnique a2f as = true) (ha : a ∈ as) :
    ¬ (dgetD a2f a []).length > 1 := by
  unfold allUnique at hu
  simpa using List.all_eq_true.mp hu a ha

/-! Explicit forms of the engine steps, and the event traces they emit. -/

theorem pexists_false_removeFile {fs : FS} {p x : Path} (h : fs.pexists x = false) :
    (fs.removeFile p).pexists x = false :=
  pexists_false_of_shape (removeFile_cwd fs p) (removeFile_dirs fs p)
    (fun _ hk => (mem_fileKeys_removeFile.mp hk).1) h

theorem tra_real_exists {dmap : List (Path × String)} {st : DelState} {a : Path}
    (h : st.fs.pexists a = true) :
    tryRemoveAsset dmap false st a
      = ⟨st.fs.removeFile a, st.deleted_pages, st.deleted_assets ++ [a],
         addSet st.affected_dirs (dirname a),
         st.events ++ [.rmAsset (dgetD dmap a "asset") a]⟩ := by
  unfold tryRemoveAsset
  simp [h]

theorem tra_dry_exists {dmap : List (Path × String)} {st : DelState} {a : Path}
    (h : st.fs.pexists a = true) :
    tryRemoveAsset dmap true st a
      = ⟨st.fs, st.deleted_pages, st.deleted_assets, st.affected_dirs,
         st.events ++ [.rmAsset (dgetD dmap a "asset") a]⟩ := by
  unfold tryRemoveAsset
  simp [h]

theorem trp_real_exists {st : DelState} {rst : Path} (h : st.fs.pexists rst = true) :
    tryRemovePage false st rst
      = ⟨st.fs.removeFile rst, st.deleted_pages ++ [rst], st.deleted_assets,
         addSet st.affected_dirs (dirname rst), st.events ++ [.rmPage rst]⟩ := by
  unfold tryRemovePage
  simp [h]

theorem trp_dry_exists {st : DelState} {rst : Path} (h : st.fs.pexists rst = true) :
    tryRemovePage true st rst
      = ⟨st.fs, st.deleted_pages, st.deleted_assets, st.affected_dirs,
         st.events ++ [.rmPage rst]⟩ := by
  unfold tryRemovePage
  simp [h]

theorem fold_tra_pexists_false (dmap : List (Path × String)) (dry : Bool)
    (assets : List Path) (st : DelState) {x : Path} (h : st.fs.pexists x = false) :
    ((assets.foldl (tryRemoveAsset dmap dry) st)).fs.pexists x = false :=
  pexists_false_of_shape (fold_tra_cwd dmap dry assets st) (fold_tra_dirs dmap dry assets st)
    (fold_tra_keys_subset dmap dry assets st) h

/-- The asset loop of one qualifying document emits only asset-removal
events for members of the asset list, and nothing for an asset that was
already missing when the loop started. -/
theorem fold_tra_events (dmap : List (Path × String)) :
    ∀ (assets : List Path) (st : DelState),
      ∃ segA : List Event,
        (assets.foldl (tryRemoveAsset dmap false) st).events = st.events ++ segA
        ∧ (∀ ev ∈ segA, ev.target ∈ assets ∧ ∃ nm, ev = Event.rmAsset nm ev.target)
        ∧ (∀ a : Path, st.fs.pexists a = false → ∀ ev ∈ segA, ev.target ≠ a) := by
  intro assets
  induction assets with
  | nil =>
    intro st
    exact ⟨[], by simp, by simp, by simp⟩
  | cons a as ih =>
    intro st
    by_cases h : st.fs.pexists a = true
    · rw [List.foldl_cons, tra_real_exists h]
      obtain ⟨segA, h1, h2, h3⟩ := ih
        ⟨st.fs.removeFile a, st.deleted_pages, st.deleted_assets ++ [a],
         addSet st.affected_dirs (dirname a),
         st.events ++ [.rmAsset (dgetD dmap a "asset") a]⟩
      refine ⟨Event.rmAsset (dgetD dmap a "asset") a :: segA, ?_, ?_, ?_⟩
      · simpa using h1
      · intro ev hev
        rcases List.mem_cons.mp hev with hev | hev
        · subst hev
          exact ⟨List.mem_cons_self a as, ⟨dgetD dmap a "asset", rfl⟩⟩
        · obtain ⟨ht, nm, hnm⟩ := h2 ev hev
          exact ⟨List.mem_cons_of_mem a ht, nm, hnm⟩
      · intro x hx ev hev
        rcases List.mem_cons.mp hev with hev | hev
        · subst hev
          intro hax
          simp only [Event.target] at hax
          rw [hax] at h
          rw [h] at hx
          cases hx
        · exact h3 x (pexists_false_removeFile hx) ev hev
    · have hfalse : st.fs.pexists a = false := by simpa using h
      rw [List.foldl_cons, tra_not_exists hfalse]
      obtain ⟨segA, h1, h2, h3⟩ := ih st
      refine ⟨segA, h1, ?_, fun x hx ev hev => h3 x hx ev hev⟩
      intro ev hev
      obtain ⟨ht, nm, hnm⟩ := h2 ev hev
      exact ⟨List.mem_cons_of_mem a ht, nm, hnm⟩

/-- The page step emits at most the page-removal event, and nothing when the
page is already missing. -/
theorem trp_events (st : DelState) (rst : Path) :
    ∃ segP : List Event,
      (tryRemovePage false st rst).events = st.events ++ segP
      ∧ (segP = [] ∨ segP = [Event.rmPage rst])
      ∧ (st.fs.pexists rst = false → segP = []) := by
  by_cases h : st.fs.pexists rst = true
  · refine ⟨[Event.rmPage rst], ?_, Or.inr rfl, ?_⟩
    · rw [trp_real_exists h]
    · intro hfalse; rw [hfalse] at h; cases h
  · have hfalse : st.fs.pexists rst = false := by simpa using h
    exact ⟨[], by rw [trp_not_exists hfalse]; simp, Or.inl rfl, fun _ => rfl⟩

/-! Claim theorems: concrete evaluations. -/

/-- C1: the claim asserts that an asset referenced (directly or through
include hops) by two or more documents is never removed from disk. In the
ExB tree a.rst includes b.rst (the include edge is recorded) and b.rst
references x.png, so x.png is referenced by both documents; yet when
discovery lists b.rst first, the run deletes x.png together with both
pages. -/
theorem C1_counterexample :
    find_rst_files ExB.fs ⟨true, ["r", "docs"]⟩ = [ExB.bRst, ExB.aRst]
    ∧ dgetD (build_asset_index ExB.fs [ExB.bRst, ExB.aRst]).include_graph ExB.aRst []
        = [ExB.bRst]
    ∧ dget (extract_assets ExB.fs ExB.bRst) ExB.xPng = some "image"
    ∧ (execute ExB.fs ⟨true, ["r", "docs"]⟩ false).map
        (fun r => (r.deleted_assets, r.deleted_pages))
      = some ([ExB.xPng], [ExB.bRst, ExB.aRst]) :=
  ⟨rfl, rfl, rfl, rfl⟩

/-- C1 amended: relative to the computed (order-dependent) reference index:
an asset whose computed reference set holds two or more documents is never
removed as an asset; a document enters deleted_pages only from a qualifying
entry (nonempty asset set, every asset computed-unique); and a qualifying
entry's document file is no longer a file on disk once the run finishes. -/
theorem C1_amended :
    (∀ (idx : Index) (fs : FS) (a : Path),
        (dgetD idx.asset_to_files a []).length > 1 →
        a ∉ (delete_unused_assets_and_pages idx fs false).deleted_assets)
    ∧ (∀ (idx : Index) (fs : FS) (d : Path),
        d ∈ (delete_unused_assets_and_pages idx fs false).deleted_pages →
        ∃ as, (d, as) ∈ idx.file_to_assets ∧ as ≠ []
          ∧ allUnique idx.asset_to_files as = true)
    ∧ (∀ (idx : Index) (fs : FS) (e : Path × List Path),
        e ∈ idx.file_to_assets → e.2 ≠ [] → allUnique idx.asset_to_files e.2 = true →
        (delete_unused_assets_and_pages idx fs false).fs.isFile e.1 = false) := by
  refine ⟨?_, ?_, ?_⟩
  · intro idx fs a hlen hmem
    unfold delete_unused_assets_and_pages at hmem
    rcases engine_fold_assets_mem idx.file_to_assets _ a hmem with h | ⟨e, _, hx, hu⟩
    · cases h
    · exact allUnique_mem hu hx hlen
  · intro idx fs d hmem
    unfold delete_unused_assets_and_pages at hmem
    rcases engine_fold_pages_mem idx.file_to_assets _ d hmem with h | ⟨e, he, hx, hu, hne⟩
    · cases h
    · refine ⟨e.2, ?_, hne, hu⟩
      rw [hx]
      simpa using he
  · intro idx fs e he hne hu
    unfold delete_unused_assets_and_pages
    exact engine_fold_isFile_entry idx.file_to_assets _ e he hne hu

/-- C9 amended: a document whose computed asset set is empty is skipped by
the engine (its entry changes nothing at all), and such a document never
enters deleted_pages; its file may still be removed from disk as an asset
of another qualifying document, as the counterexample shows. -/
theorem C9_amended :
    (∀ (a2f : List (Path × List Path)) (dmap : List (Path × String)) (dry : Bool)
        (st : DelState) (e : Path × List Path),
        e.2 = [] → engineStep a2f dmap dry st e = st)
    ∧ (∀ (idx : Index) (fs : FS) (d : Path),
        (∀ as, (d, as) ∈ idx.file_to_assets → as = []) →
        d ∉ (delete_unused_assets_and_pages idx fs false).deleted_pages) := by
  refine ⟨?_, ?_⟩
  · intro a2f dmap dry st e he
    unfold engineStep
    simp [he]
  · intro idx fs d hall hmem
    unfold delete_unused_assets_and_pages at hmem
    rcases engine_fold_pages_mem idx.file_to_assets _ d hmem with h | ⟨e, he, hx, _, hne⟩
    · cases h
    · refine hne (hall e.2 ?_)
      rw [hx]
      simpa using he

/-- C2: build_asset_index's expansion is order dependent: with a.rst
including b.rst and b.rst holding x.png, processing order [b, a] leaves
a.rst's entry without x.png (which is reachable from a.rst in one include
hop), while order [a, b] finds it. -/
theorem C2_code_bug_eval :
    dgetD (build_asset_index ExB.fs [ExB.bRst, ExB.aRst]).file_to_assets ExB.aRst []
      = [ExB.bRst]
    ∧ dgetD (build_asset_index ExB.fs [ExB.aRst, ExB.bRst]).file_to_assets ExB.aRst []
      = [ExB.bRst, ExB.xPng]
    ∧ dgetD (build_asset_index ExB.fs [ExB.bRst, ExB.aRst]).file_to_assets ExB.bRst []
      = [ExB.xPng] :=
  ⟨rfl, rfl, rfl⟩

/-- C3: on the two-document include cycle a.rst and b.rst, expansion
terminates, and the first-processed document receives the union of both
direct asset sets, but the second keeps only its own direct assets: b.rst's
set misses a.png and b.rst (the claim demands the union for both). -/
theorem C3_code_bug_eval :
    dgetD (build_asset_index ExCyc.fs [ExCyc.aRst, ExCyc.bRst]).file_to_assets ExCyc.aRst []
      = [ExCyc.aPng, ExCyc.bRst, ExCyc.bPng, ExCyc.aRst]
    ∧ dgetD (build_asset_index ExCyc.fs [ExCyc.aRst, ExCyc.bRst]).file_to_assets ExCyc.bRst []
      = [ExCyc.bPng, ExCyc.aRst] :=
  ⟨rfl, rfl⟩

/-- C4: a real run of the ExDry tree removes the sub directory and then the
now-empty root, but the dry run records no affected directory, skips the
pruning phase entirely, and reports no directory candidate at all, so the
two runs do not agree on the candidate directory set. -/
theorem C4_counterexample :
    (execute ExDry.fs ExDry.root false).map (fun r => r.deleted_dirs)
      = some [ExDry.subDir, ExDry.root]
    ∧ (execute ExDry.fs ExDry.root true).map
        (fun r => (r.deleted_dirs, r.reported_dirs, decide (r.fs = ExDry.fs)))
      = some ([], [], true) :=
  ⟨rfl, rfl⟩

/-- C5: the pipeline is not idempotent. In ExTwice, the first run deletes
d.rst (as an asset of the qualifying e.rst) and e.rst itself; in the second
run s.png is no longer shared, so the rerun deletes s.png, c.rst and two
directories. -/
theorem C5_code_bug_eval :
    (execute ExTwice.fs ExTwice.root false).map
        (fun r => (r.deleted_assets, r.deleted_pages, r.deleted_dirs))
      = some ([ExTwice.dRst], [ExTwice.eRst], [])
    ∧ ((execute ExTwice.fs ExTwice.root false).bind
          (fun r1 => execute r1.fs ExTwice.root false)).map
        (fun r => (r.deleted_assets, r.deleted_pages, r.deleted_dirs))
      = some ([ExTwice.sPng], [ExTwice.cRst],
              [⟨true, ["r", "docs", "sub"]⟩, ExTwice.root]) :=
  ⟨rfl, rfl⟩

/-- C6: invoked with the relative path a/docs from cwd /cw, the pruner's
ancestor walk compares relative parents against the absolute original path,
climbs past the invocation root, and removes the directory a, whose
resolved path /cw/a lies strictly above the resolved root /cw/a/docs. -/
theorem C6_code_bug_eval :
    (execute ExRel.fs ExRel.relPath false).map (fun r => r.deleted_dirs)
      = some [⟨false, ["a", "docs"]⟩, ExRel.relA]
    ∧ (ExRel.fs.resolve ExRel.relA).comps
        = (ExRel.fs.resolve ExRel.relPath).comps.take 2
    ∧ (ExRel.fs.resolve ExRel.relPath).comps.length = 3 :=
  ⟨rfl, rfl, rfl⟩

/-- C10: every directive target extracted from a scanned document, include
targets included and whether or not the target exists on disk, ends up in
that document's final asset set (ghost.rst is not on disk and is still
recorded), and an include target participates as an asset: in ExInc the
engine removes the included b.rst from disk as an asset of the qualifying
a.rst. -/
theorem C10_include_targets_are_assets :
    (∀ (fs : FS) (rsts : List Path) (d p : Path) (v : String),
        d ∈ rsts → (p, v) ∈ extract_assets fs d →
        p ∈ dgetD (build_asset_index fs rsts).file_to_assets d [])
    ∧ dgetD (build_asset_index ExGhost.fs [ExGhost.cRst]).file_to_assets ExGhost.cRst []
        = [ExGhost.ghost]
    ∧ (delete_unused_assets_and_pages ExInc.idx ExInc.fs false).deleted_assets
        = [ExInc.bRst]
    ∧ dget (extract_assets ExInc.fs ExInc.aRst) ExInc.bRst = some "include" := by
  refine ⟨?_, rfl, rfl, rfl⟩
  intro fs rsts d p v hd hpv
  exact build_supset_direct fs rsts d p hd (mem_directOf hpv)

/-! The dry run against the real run: a lockstep simulation showing that the
two runs name exactly the same on-disk files. -/

theorem pexists_iff (fs : FS) (p : Path) :
    fs.pexists p = true ↔ (fs.resolve p ∈ fs.fileKeys ∨ fs.resolve p ∈ fs.dirs) := by
  unfold FS.pexists FS.isFile FS.isDir
  simp

theorem sim_tra (fs0 : FS) (dmap : List (Path × String)) (a : Path) {std str : DelState}
    (h : DryRealSim fs0 std str) :
    DryRealSim fs0 (tryRemoveAsset dmap true std a) (tryRemoveAsset dmap false str a) := by
  obtain ⟨h1, h2, h3, h4, h5⟩ := h
  have hres : str.fs.resolve a = fs0.resolve a := resolve_congr h2 a
  by_cases hd : fs0.pexists a = true
  · have hstd : std.fs.pexists a = true := by rw [h1]; exact hd
    by_cases hr : str.fs.pexists a = true
    · rw [tra_dry_exists hstd, tra_real_exists hr]
      refine ⟨h1, h2, h3, ?_, ?_⟩
      · intro k
        rw [mem_fileKeys_removeFile]
        have hrt : resolvedTargets fs0
            ⟨str.fs.removeFile a, str.deleted_pages, str.deleted_assets ++ [a],
             addSet str.affected_dirs (dirname a),
             str.events ++ [.rmAsset (dgetD dmap a "asset") a]⟩
            = resolvedTargets fs0 str ++ [fs0.resolve a] := by
          simp [resolvedTargets, Event.target]
        rw [hrt, h4 k, hres]
        simp only [List.mem_append, List.mem_singleton, not_or]
        tauto
      · intro p
        have hrtd : resolvedTargets fs0
            ⟨std.fs, std.deleted_pages, std.deleted_assets, std.affected_dirs,
             std.events ++ [.rmAsset (dgetD dmap a "asset") a]⟩
            = resolvedTargets fs0 std ++ [fs0.resolve a] := by
          simp [resolvedTargets, Event.target]
        have hrtr : resolvedTargets fs0
            ⟨str.fs.removeFile a, str.deleted_pages, str.deleted_assets ++ [a],
             addSet str.affected_dirs (dirname a),
             str.events ++ [.rmAsset (dgetD dmap a "asset") a]⟩
            = resolvedTargets fs0 str ++ [fs0.resolve a] := by
          simp [resolvedTargets, Event.target]
        rw [hrtd, hrtr]
        simp only [List.mem_append, List.mem_singleton, h5 p]
    · have hrf : str.fs.pexists a = false := by simpa using hr
      rw [tra_dry_exists hstd, tra_not_exists hrf]
      have hmem : fs0.resolve a ∈ resolvedTargets fs0 str := by
        rcases (pexists_iff fs0 a).mp hd with hk | hdir
        · by_contra hnot
          have hks : fs0.resolve a ∈ str.fs.fileKeys := (h4 _).mpr ⟨hk, hnot⟩
          have : str.fs.pexists a = true :=
            (pexists_iff str.fs a).mpr (Or.inl (by rw [hres]; exact hks))
          rw [this] at hrf; cases hrf
        · exfalso
          have : str.fs.pexists a = true :=
            (pexists_iff str.fs a).mpr (Or.inr (by rw [hres, h3]; exact hdir))
          rw [this] at hrf; cases hrf
      refine ⟨h1, h2, h3, h4, ?_⟩
      intro p
      have hrtd : resolvedTargets fs0
          ⟨std.fs, std.deleted_pages, std.deleted_assets, std.affected_dirs,
           std.events ++ [.rmAsset (dgetD dmap a "asset") a]⟩
          = resolvedTargets fs0 std ++ [fs0.resolve a] := by
        simp [resolvedTargets, Event.target]
      rw [hrtd]
      simp only [List.mem_append, List.mem_singleton]
      constructor
      · rintro (hp | rfl)
        · exact (h5 p).mp hp
        · exact hmem
      · intro hp
        exact Or.inl ((h5 p).mpr hp)
  · have hdf : fs0.pexists a = false := by simpa using hd
    have hstdf : std.fs.pexists a = false := by rw [h1]; exact hdf
    have hrf : str.fs.pexists a = false := by
      by_contra hcon
      have hrt : str.fs.pexists a = true := by simpa using hcon
      rcases (pexists_iff str.fs a).mp hrt with hk | hdir
      · have hk0 := ((h4 _).mp (hres ▸ hk)).1
        have : fs0.pexists a = true := (pexists_iff fs0 a).mpr (Or.inl hk0)
        rw [this] at hdf; cases hdf
      · have : fs0.pexists a = true := by
          refine (pexists_iff fs0 a).mpr (Or.inr ?_)
          rw [← h3, ← hres]
          exact hdir
        rw [this] at hdf; cases hdf
    rw [tra_not_exists hstdf, tra_not_exists hrf]
    exact ⟨h1, h2, h3, h4, h5⟩

theorem sim_trp (fs0 : FS) (rst : Path) {std str : DelState}
    (h : DryRealSim fs0 std str) :
    DryRealSim fs0 (tryRemovePage true std rst) (tryRemovePage false str rst) := by
  obtain ⟨h1, h2, h3, h4, h5⟩ := h
  have hres : str.fs.resolve rst = fs0.resolve rst := resolve_congr h2 rst
  by_cases hd : fs0.pexists rst = true
  · have hstd : std.fs.pexists rst = true := by rw [h1]; exact hd
    by_cases hr : str.fs.pexists rst = true
    · rw [trp_dry_exists hstd, trp_real_exists hr]
      refine ⟨h1, h2, h3, ?_, ?_⟩
      · intro k
        rw [mem_fileKeys_removeFile]
        have hrt : resolvedTargets fs0
            ⟨str.fs.removeFile rst, str.deleted_pages ++ [rst], str.deleted_assets,
             addSet str.affected_dirs (dirname rst), str.events ++ [.rmPage rst]⟩
            = resolvedTargets fs0 str ++ [fs0.resolve rst] := by
          simp [resolvedTargets, Event.target]
        rw [hrt, h4 k, hres]
        simp only [List.mem_append, List.mem_singleton, not_or]
        tauto
      · intro p
        have hrtd : resolvedTargets fs0
            ⟨std.fs, std.deleted_pages, std.deleted_assets, std.affected_dirs,
             std.events ++ [.rmPage rst]⟩
            = resolvedTargets fs0 std ++ [fs0.resolve rst] := by
          simp [resolvedTargets, Event.target]
        have hrtr : resolvedTargets fs0
            ⟨str.fs.removeFile rst, str.deleted_pages ++ [rst], str.deleted_assets,
             addSet str.affected_dirs (dirname rst), str.events ++ [.rmPage rst]⟩
            = resolvedTargets fs0 str ++ [fs0.resolve rst] := by
          simp [resolvedTargets, Event.target]
        rw [hrtd, hrtr]
        simp only [List.mem_append, List.mem_singleton, h5 p]
    · have hrf : str.fs.pexists rst = false := by simpa using hr
      rw [trp_dry_exists hstd, trp_not_exists hrf]
      have hmem : fs0.resolve rst ∈ resolvedTargets fs0 str := by
        rcases (pexists_iff fs0 rst).mp hd with hk | hdir
        · by_contra hnot
          have hks : fs0.resolve rst ∈ str.fs.fileKeys := (h4 _).mpr ⟨hk, hnot⟩
          have : str.fs.pexists rst = true :=
            (pexists_iff str.fs rst).mpr (Or.inl (by rw [hres]; exact hks))
          rw [this] at hrf; cases hrf
        · exfalso
          have : str.fs.pexists rst = true :=
            (pexists_iff str.fs rst).mpr (Or.inr (by rw [hres, h3]; exact hdir))
          rw [this] at hrf; cases hrf
      refine ⟨h1, h2, h3, h4, ?_⟩
      intro p
      have hrtd : resolvedTargets fs0
          ⟨std.fs, std.deleted_pages, std.deleted_assets, std.affected_dirs,
           std.events ++ [.rmPage rst]⟩
          = resolvedTargets fs0 std ++ [fs0.resolve rst] := by
        simp [resolvedTargets, Event.target]
      rw [hrtd]
      simp only [List.mem_append, List.mem_singleton]
      constructor
      · rintro (hp | rfl)
        · exact (h5 p).mp hp
        · exact hmem
      · intro hp
        exact Or.inl ((h5 p).mpr hp)
  · have hdf : fs0.pexists rst = false := by simpa using hd
    have hstdf : std.fs.pexists rst = false := by rw [h1]; exact hdf
    have hrf : str.fs.pexists rst = false := by
      by_contra hcon
      have hrt : str.fs.pexists rst = true := by simpa using hcon
      rcases (pexists_iff str.fs rst).mp hrt with hk | hdir
      · have hk0 := ((h4 _).mp (hres ▸ hk)).1
        have : fs0.pexists rst = true := (pexists_iff fs0 rst).mpr (Or.inl hk0)
        rw [this] at hdf; cases hdf
      · have : fs0.pexists rst = true := by
          refine (pexists_iff fs0 rst).mpr (Or.inr ?_)
          rw [← h3, ← hres]
          exact hdir
        rw [this] at hdf; cases hdf
    rw [trp_not_exists hstdf, trp_not_exists hrf]
    exact ⟨h1, h2, h3, h4, h5⟩

theorem sim_fold_tra (fs0 : FS) (dmap : List (Path × String)) :
    ∀ (assets : List Path) {std str : DelState}, DryRealSim fs0 std str →
      DryRealSim fs0 (assets.foldl (tryRemoveAsset dmap true) std)
        (assets.foldl (tryRemoveAsset dmap false) str) := by
  intro assets
  induction assets with
  | nil => intro std str h; exact h
  | cons a as ih => intro std str h; exact ih (sim_tra fs0 dmap a h)

theorem sim_deleteDoc (fs0 : FS) (dmap : List (Path × String)) (rst : Path)
    (assets : List Path) {std str : DelState} (h : DryRealSim fs0 std str) :
    DryRealSim fs0 (deleteDoc dmap true std rst assets) (deleteDoc dmap false str rst assets) := by
  unfold deleteDoc
  exact sim_trp fs0 rst (sim_fold_tra fs0 dmap assets h)

theorem sim_engineStep (fs0 : FS) (a2f : List (Path × List Path))
    (dmap : List (Path × String)) (e : Path × List Path) {std str : DelState}
    (h : DryRealSim fs0 std str) :
    DryRealSim fs0 (engineStep a2f dmap true std e) (engineStep a2f dmap false str e) := by
  unfold engineStep
  by_cases h1 : e.2.isEmpty = true
  · simpa [h1] using h
  · by_cases h2 : allUnique a2f e.2 = true
    · simpa [h1, h2] using sim_deleteDoc fs0 dmap e.1 e.2 h
    · simpa [h1, h2] using h

theorem sim_engine_fold (fs0 : FS) (a2f : List (Path × List Path))
    (dmap : List (Path × String)) :
    ∀ (entries : List (Path × List Path)) {std str : DelState}, DryRealSim fs0 std str →
      DryRealSim fs0 (entries.foldl (engineStep a2f dmap true) std)
        (entries.foldl (engineStep a2f dmap false) str) := by
  intro entries
  induction entries with
  | nil => intro std str h; exact h
  | cons e es ih => intro std str h; exact ih (sim_engineStep fs0 a2f dmap e h)

theorem sim_init (fs : FS) :
    DryRealSim fs ⟨fs, [], [], [], []⟩ ⟨fs, [], [], [], []⟩ := by
  refine ⟨rfl, rfl, rfl, ?_, fun p => Iff.rfl⟩
  intro k
  simp [resolvedTargets]

theorem sim_engine (idx : Index) (fs : FS) :
    DryRealSim fs (delete_unused_assets_and_pages idx fs true)
      (delete_unused_assets_and_pages idx fs false) := by
  unfold delete_unused_assets_and_pages
  exact sim_engine_fold fs idx.asset_to_files idx.asset_directive_map
    idx.file_to_assets (sim_init fs)

/-! The dry run changes no bookkeeping state at all. -/

theorem dry_keep_tra (dmap : List (Path × String)) (st : DelState) (a : Path) :
    (tryRemoveAsset dmap true st a).fs = st.fs
    ∧ (tryRemoveAsset dmap true st a).affected_dirs = st.affected_dirs
    ∧ (tryRemoveAsset dmap true st a).deleted_pages = st.deleted_pages
    ∧ (tryRemoveAsset dmap true st a).deleted_assets = st.deleted_assets := by
  by_cases h : st.fs.pexists a = true
  · rw [tra_dry_exists h]; exact ⟨rfl, rfl, rfl, rfl⟩
  · rw [tra_not_exists (by simpa using h)]; exact ⟨rfl, rfl, rfl, rfl⟩

theorem dry_keep_trp (st : DelState) (rst : Path) :
    (tryRemovePage true st rst).fs = st.fs
    ∧ (tryRemovePage true st rst).affected_dirs = st.affected_dirs
    ∧ (tryRemovePage true st rst).deleted_pages = st.deleted_pages
    ∧ (tryRemovePage true st rst).deleted_assets = st.deleted_assets := by
  by_cases h : st.fs.pexists rst = true
  · rw [trp_dry_exists h]; exact ⟨rfl, rfl, rfl, rfl⟩
  · rw [trp_not_exists (by simpa using h)]; exact ⟨rfl, rfl, rfl, rfl⟩

theorem dry_keep_fold_tra (dmap : List (Path × String)) :
    ∀ (assets : List Path) (st : DelState),
      (assets.foldl (tryRemoveAsset dmap true) st).fs = st.fs
      ∧ (assets.foldl (tryRemoveAsset dmap true) st).affected_dirs = st.affected_dirs
      ∧ (assets.foldl (tryRemoveAsset dmap true) st).deleted_pages = st.deleted_pages
      ∧ (assets.foldl (tryRemoveAsset dmap true) st).deleted_assets = st.deleted_assets := by
  intro assets
  induction assets with
  | nil => intro st; exact ⟨rfl, rfl, rfl, rfl⟩
  | cons a as ih =>
    intro st
    obtain ⟨i1, i2, i3, i4⟩ := ih (tryRemoveAsset dmap true st a)
    obtain ⟨j1, j2, j3, j4⟩ := dry_keep_tra dmap st a
    exact ⟨by rw [List.foldl_cons, i1, j1], by rw [List.foldl_cons, i2, j2],
           by rw [List.foldl_cons, i3, j3], by rw [List.foldl_cons, i4, j4]⟩

theorem dry_keep_deleteDoc (dmap : List (Path × String)) (st : DelState) (rst : Path)
    (assets : List Path) :
    (deleteDoc dmap true st rst assets).fs = st.fs
    ∧ (deleteDoc dmap true st rst assets).affected_dirs = st.affected_dirs
    ∧ (deleteDoc dmap true st rst assets).deleted_pages = st.deleted_pages
    ∧ (deleteDoc dmap true st rst assets).deleted_assets = st.deleted_assets := by
  unfold deleteDoc
  obtain ⟨i1, i2, i3, i4⟩ := dry_keep_fold_tra dmap assets st
  obtain ⟨j1, j2, j3, j4⟩ := dry_keep_trp (assets.foldl (tryRemoveAsset dmap true) st) rst
  exact ⟨by rw [j1, i1], by rw [j2, i2], by rw [j3, i3], by rw [j4, i4]⟩

theorem dry_keep_engineStep (a2f : List (Path × List Path)) (dmap : List (Path × String))
    (st : DelState) (e : Path × List Path) :
    (engineStep a2f dmap true st e).fs = st.fs
    ∧ (engineStep a2f dmap true st e).affected_dirs = st.affected_dirs
    ∧ (engineStep a2f dmap true st e).deleted_pages = st.deleted_pages
    ∧ (engineStep a2f dmap true st e).deleted_assets = st.deleted_assets := by
  unfold engineStep
  by_cases h1 : e.2.isEmpty = true
  · simp [h1]
  · by_cases h2 : allUnique a2f e.2 = true
    · simpa [h1, h2] using dry_keep_deleteDoc dmap st e.1 e.2
    · simp [h1, h2]

theorem dry_keep_engine_fold (a2f : List (Path × List Path)) (dmap : List (Path × String)) :
    ∀ (entries : List (Path × List Path)) (st : DelState),
      (entries.foldl (engineStep a2f dmap true) st).fs = st.fs
      ∧ (entries.foldl (engineStep a2f dmap true) st).affected_dirs = st.affected_dirs
      ∧ (entries.foldl (engineStep a2f dmap true) st).deleted_pages = st.deleted_pages
      ∧ (entries.foldl (engineStep a2f dmap true) st).deleted_assets = st.deleted_assets := by
  intro entries
  induction entries with
  | nil => intro st; exact ⟨rfl, rfl, rfl, rfl⟩
  | cons e es ih =>
    intro st
    obtain ⟨i1, i2, i3, i4⟩ := ih (engineStep a2f dmap true st e)
    obtain ⟨j1, j2, j3, j4⟩ := dry_keep_engineStep a2f dmap st e
    exact ⟨by rw [List.foldl_cons, i1, j1], by rw [List.foldl_cons, i2, j2],
           by rw [List.foldl_cons, i3, j3], by rw [List.foldl_cons, i4, j4]⟩

/-! The pruner's ancestor walk, under the invocation discipline where every
affected directory lies strictly below the original path and its ancestors
exist: the walk terminates and collects exactly the strictly-between
ancestors. -/

theorem ancList_zero (p : Path) : ancList p 0 = [] := rfl

theorem ancList_succ (p : Path) (n : Nat) :
    ancList p (n + 1) = p :: ancList (dirname p) n := by
  unfold ancList dirname
  rw [List.range_succ_eq_map, List.map_cons, List.map_map]
  congr 1
  · simp
  · refine List.map_congr_left ?_
    intro i _
    simp only [Function.comp_apply]
    congr 1
    simp only [List.dropLast_eq_take, List.take_take, List.length_take]
    congr 1
    omega

theorem climb_spec (fs : FS) (orig : Path) :
    ∀ (n fuel : Nat) (p : Path) (acc : List Path),
      n ≤ fuel →
      p.isAbs = orig.isAbs →
      p.comps.length = orig.comps.length + n →
      orig.comps = p.comps.take orig.comps.length →
      (∀ k, orig.comps.length < k → k ≤ p.comps.length →
          fs.pexists ⟨p.isAbs, p.comps.take k⟩ = true) →
      climb fs orig fuel p acc = some ((ancList p n).foldl addSet acc) := by
  intro n
  induction n with
  | zero =>
    intro fuel p acc _ habs hlen hpre _
    have hcomps : p.comps = orig.comps := by
      conv_lhs => rw [← List.take_length (l := p.comps)]
      rw [hlen]
      simpa using hpre.symm
    have hpq : p = orig := by
      cases p
      cases orig
      congr 1
    subst hpq
    have hcond : ¬(pyTruthy p = true ∧ fs.pexists p = true ∧ p ≠ p) := by simp
    rw [ancList_zero, List.foldl_nil]
    cases fuel with
    | zero =>
      have heq : climb fs p 0 p acc
          = if pyTruthy p = true ∧ fs.pexists p = true ∧ p ≠ p then none
            else some acc := rfl
      rw [heq, if_neg hcond]
    | succ f =>
      have heq : climb fs p (f + 1) p acc
          = if pyTruthy p = true ∧ fs.pexists p = true ∧ p ≠ p then
              climb fs p f (dirname p) (addSet acc p)
            else some acc := rfl
      rw [heq, if_neg hcond]
  | succ n ih =>
    intro fuel p acc hfuel habs hlen hpre hex
    cases fuel with
    | zero => omega
    | succ f =>
      have hne : p.comps ≠ [] := by
        intro h
        rw [h] at hlen
        simp at hlen
        omega
      have hcond : pyTruthy p = true ∧ fs.pexists p = true ∧ p ≠ orig := by
        refine ⟨?_, ?_, ?_⟩
        · unfold pyTruthy
          simp [hne]
        · have := hex p.comps.length (by omega) (le_refl _)
          simpa using this
        · intro h
          rw [h] at hlen
          omega
      have heq : climb fs orig (f + 1) p acc
          = if pyTruthy p = true ∧ fs.pexists p = true ∧ p ≠ orig then
              climb fs orig f (dirname p) (addSet acc p)
            else some acc := rfl
      have hdrop : (dirname p).comps = p.comps.take (p.comps.length - 1) := by
        unfold dirname
        exact List.dropLast_eq_take p.comps
      have hlen' : (dirname p).comps.length = orig.comps.length + n := by
        unfold dirname
        rw [List.length_dropLast]
        omega
      have hpre' : orig.comps = (dirname p).comps.take orig.comps.length := by
        rw [hdrop, List.take_take, min_eq_left (by omega)]
        exact hpre
      have hex' : ∀ k, orig.comps.length < k → k ≤ (dirname p).comps.length →
          fs.pexists ⟨(dirname p).isAbs, (dirname p).comps.take k⟩ = true := by
        intro k hk1 hk2
        rw [hlen'] at hk2
        have htk : (dirname p).comps.take k = p.comps.take k := by
          rw [hdrop, List.take_take, min_eq_left (by omega)]
        have habs2 : (dirname p).isAbs = p.isAbs := rfl
        rw [htk, habs2]
        exact hex k hk1 (by omega)
      rw [heq, if_pos hcond, ih f (dirname p) (addSet acc p) (by omega) habs hlen' hpre' hex',
        ancList_succ, List.foldl_cons]

theorem mem_ancList_iff {orig d p : Path} (hb : strictlyBelow orig d) :
    p ∈ ancList (dirname d) (d.comps.length - orig.comps.length - 1)
      ↔ (strictlyBelow orig p ∧ strictlyBelow p d) := by
  obtain ⟨habs, hpre, hlt⟩ := hb
  have hdrop : (dirname d).comps = d.comps.take (d.comps.length - 1) := by
    unfold dirname
    exact List.dropLast_eq_take d.comps
  have hdlen : (dirname d).comps.length = d.comps.length - 1 := by
    unfold dirname
    exact List.length_dropLast d.comps
  unfold ancList
  simp only [List.mem_map, List.mem_range]
  constructor
  · rintro ⟨i, hi, rfl⟩
    have htk : (⟨(dirname d).isAbs,
          (dirname d).comps.take ((dirname d).comps.length - i)⟩ : Path)
        = ⟨d.isAbs, d.comps.take (d.comps.length - 1 - i)⟩ := by
      congr 1
      rw [hdlen, hdrop, List.take_take]
      congr 1
      omega
    rw [htk]
    have hklen : ((⟨d.isAbs, d.comps.take (d.comps.length - 1 - i)⟩ : Path)).comps.length
        = d.comps.length - 1 - i := by
      show (d.comps.take (d.comps.length - 1 - i)).length = d.comps.length - 1 - i
      rw [List.length_take]
      omega
    constructor
    · refine ⟨habs, ?_, ?_⟩
      · show orig.comps = (d.comps.take (d.comps.length - 1 - i)).take orig.comps.length
        rw [List.take_take, min_eq_left (by omega)]
        exact hpre
      · rw [hklen]
        omega
    · refine ⟨rfl, ?_, ?_⟩
      · rw [hklen]
      · rw [hklen]
        omega
  · rintro ⟨⟨habs1, hpre1, hlt1⟩, ⟨habs2, hpre2, hlt2⟩⟩
    refine ⟨d.comps.length - 1 - p.comps.length, by omega, ?_⟩
    have harg : (dirname d).comps.length - (d.comps.length - 1 - p.comps.length)
        = p.comps.length := by
      rw [hdlen]
      omega
    rw [harg]
    have htk : (dirname d).comps.take p.comps.length = p.comps := by
      rw [hdrop, List.take_take, min_eq_left (by omega)]
      exact hpre2.symm
    rw [htk]
    cases p
    congr 1

theorem addParents_fold_spec (fs : FS) (orig : Path) :
    ∀ (ds : List Path) (acc : List Path),
      (∀ d ∈ ds, strictlyBelow orig d) →
      (∀ d ∈ ds, ∀ k, orig.comps.length < k → k < d.comps.length →
          fs.pexists ⟨d.isAbs, d.comps.take k⟩ = true) →
      ∃ res,
        ds.foldl
          (fun acc d =>
            match acc with
            | none => none
            | some all => climb fs orig (d.comps.length + 1) (dirname d) all)
          (some acc) = some res
        ∧ (∀ p, p ∈ res ↔ p ∈ acc
            ∨ ∃ d ∈ ds, strictlyBelow orig p ∧ strictlyBelow p d) := by
  intro ds
  induction ds with
  | nil =>
    intro acc _ _
    exact ⟨acc, rfl, by simp⟩
  | cons d ds ih =>
    intro acc hb he
    have hbd := hb d (List.mem_cons_self d ds)
    obtain ⟨habs, hpre, hlt⟩ := hbd
    have hdrop : (dirname d).comps = d.comps.take (d.comps.length - 1) := by
      unfold dirname
      exact List.dropLast_eq_take d.comps
    have hdlen : (dirname d).comps.length = d.comps.length - 1 := by
      unfold dirname
      exact List.length_dropLast d.comps
    have hclimb : climb fs orig (d.comps.length + 1) (dirname d) acc
        = some ((ancList (dirname d) (d.comps.length - orig.comps.length - 1)).foldl
            addSet acc) := by
      refine climb_spec fs orig (d.comps.length - orig.comps.length - 1)
        (d.comps.length + 1) (dirname d) acc (by omega) habs ?_ ?_ ?_
      · rw [hdlen]
        omega
      · rw [hdrop, List.take_take, min_eq_left (by omega)]
        exact hpre
      · intro k hk1 hk2
        rw [hdlen] at hk2
        have htk : (dirname d).comps.take k = d.comps.take k := by
          rw [hdrop, List.take_take, min_eq_left (by omega)]
        have habs2 : (dirname d).isAbs = d.isAbs := rfl
        rw [htk, habs2]
        exact he d (List.mem_cons_self d ds) k hk1 (by omega)
    rw [List.foldl_cons]
    have hstep :
        (match some acc with
          | none => none
          | some all => climb fs orig (d.comps.length + 1) (dirname d) all)
        = climb fs orig (d.comps.length + 1) (dirname d) acc := rfl
    rw [hstep, hclimb]
    obtain ⟨res, hres, hmem⟩ := ih
      ((ancList (dirname d) (d.comps.length - orig.comps.length - 1)).foldl addSet acc)
      (fun x hx => hb x (List.mem_cons_of_mem d hx))
      (fun x hx => he x (List.mem_cons_of_mem d hx))
    refine ⟨res, hres, ?_⟩
    intro p
    rw [hmem p, mem_foldl_addSet, mem_ancList_iff ⟨habs, hpre, hlt⟩]
    constructor
    · rintro ((hp | hp) | ⟨d', hd', hp1, hp2⟩)
      · exact Or.inl hp
      · exact Or.inr ⟨d, List.mem_cons_self d ds, hp⟩
      · exact Or.inr ⟨d', List.mem_cons_of_mem d hd', hp1, hp2⟩
    · rintro (hp | ⟨d', hd', hp1, hp2⟩)
      · exact Or.inl (Or.inl hp)
      · rcases List.mem_cons.mp hd' with hd' | hd'
        · subst hd'
          exact Or.inl (Or.inr ⟨hp1, hp2⟩)
        · exact Or.inr ⟨d', hd', hp1, hp2⟩

/-! The deepest-first stable sort. -/

theorem mem_insDepth {x y : Path} : ∀ l, y ∈ insDepth x l ↔ y = x ∨ y ∈ l := by
  intro l
  induction l with
  | nil => simp [insDepth]
  | cons z zs ih =>
    unfold insDepth
    split
    all_goals simp only [List.mem_cons, ih]
    all_goals tauto

theorem mem_sortDescByDepth {y : Path} : ∀ l, y ∈ sortDescByDepth l ↔ y ∈ l := by
  intro l
  induction l with
  | nil => simp [sortDescByDepth]
  | cons x xs ih =>
    unfold sortDescByDepth
    rw [mem_insDepth, ih]
    simp

theorem sorted_insDepth (x : Path) :
    ∀ l, l.Pairwise (fun a b => depth b ≤ depth a) →
      (insDepth x l).Pairwise (fun a b => depth b ≤ depth a) := by
  intro l
  induction l with
  | nil => intro _; simp [insDepth]
  | cons y ys ih =>
    intro hp
    rcases List.pairwise_cons.mp hp with ⟨hy, hys⟩
    unfold insDepth
    split
    · next hlt =>
      refine List.pairwise_cons.mpr ⟨?_, ih hys⟩
      intro z hz
      rcases (mem_insDepth ys).mp hz with rfl | hz
      · omega
      · exact hy z hz
    · next hge =>
      refine List.pairwise_cons.mpr ⟨?_, hp⟩
      intro z hz
      rcases List.mem_cons.mp hz with rfl | hz
      · omega
      · have := hy z hz
        omega

theorem sorted_sortDescByDepth :
    ∀ l, (sortDescByDepth l).Pairwise (fun a b => depth b ≤ depth a) := by
  intro l
  induction l with
  | nil => simp [sortDescByDepth]
  | cons x xs ih => exact sorted_insDepth x (sortDescByDepth xs) ih

theorem pairwise_before {R : Path → Path → Prop} :
    ∀ (l : List Path) (p q : Path), l.Pairwise R → p ∈ l → q ∈ l → p ≠ q → ¬ R p q →
      ∃ u v w, l = u ++ q :: v ++ p :: w := by
  intro l p q hpw hp hq hne hnR
  obtain ⟨s, t, hst⟩ := List.append_of_mem hp
  subst hst
  have hq' : q ∈ s := by
    rcases List.mem_append.mp hq with h | h
    · exact h
    · rcases List.mem_cons.mp h with h | h
      · exact absurd h.symm hne
      · exfalso
        have hpt : (p :: t).Pairwise R := (List.pairwise_append.mp hpw).2.1
        exact hnR (List.rel_of_pairwise_cons hpt h)
  obtain ⟨u, v, huv⟩ := List.append_of_mem hq'
  subst huv
  exact ⟨u, v, t, by simp⟩

theorem depth_lt_of_strictlyBelow {p q : Path} (h : strictlyBelow p q)
    (h1 : 1 ≤ p.comps.length) : depth p < depth q := by
  obtain ⟨habs, _, hlt⟩ := h
  unfold depth
  rw [habs]
  cases hq : p.isAbs
  · simp only [if_false, Bool.false_eq_true]
    omega
  · simp only [if_true]
    rw [Nat.max_eq_right h1, Nat.max_eq_right (by omega)]
    exact hlt

/-- C7: when every affected directory lies strictly below the original path
and the ancestors between them exist (the situation every terminating run is
in), the pruner's candidate set is exactly the affected directories plus all
ancestors strictly between them and the root, the candidate list is ordered
by non-increasing depth (so an ancestor is always evaluated after every
candidate below it), the root itself is never a candidate, and
remove_empty_dirs is the depth-ordered pass followed by the special-cased
root step (which removes the root only if it is a directory and empty). -/
theorem C7_pruner_order :
    ∀ (fs : FS) (dirs : List Path) (orig : Path) (dry : Bool),
      (∀ d ∈ dirs, strictlyBelow orig d) →
      (∀ d ∈ dirs, ∀ k, orig.comps.length < k → k < d.comps.length →
          fs.pexists ⟨d.isAbs, d.comps.take k⟩ = true) →
      ∃ cands,
        pruneCandidates fs orig dirs = some cands
        ∧ (∀ p, p ∈ cands ↔ p ∈ dirs
            ∨ ∃ d ∈ dirs, strictlyBelow orig p ∧ strictlyBelow p d)
        ∧ cands.Pairwise (fun a b => depth b ≤ depth a)
        ∧ (∀ p q, p ∈ cands → q ∈ cands → strictlyBelow p q →
            ∃ u v w, cands = u ++ q :: v ++ p :: w)
        ∧ orig ∉ cands
        ∧ remove_empty_dirs fs dirs orig dry
            = some (rootStep (prunePass fs cands dry) orig dry) := by
  intro fs dirs orig dry hb he
  obtain ⟨res, hres, hmem⟩ := addParents_fold_spec fs orig dirs dirs hb he
  have haddp : addParents fs orig dirs = some res := by
    unfold addParents
    exact hres
  refine ⟨sortDescByDepth res, ?_, ?_, ?_, ?_, ?_, ?_⟩
  · unfold pruneCandidates
    rw [haddp]
    rfl
  · intro p
    rw [mem_sortDescByDepth res, hmem p]
  · exact sorted_sortDescByDepth res
  · intro p q hp hq hpq
    have hbp : strictlyBelow orig p := by
      have hp' : p ∈ res := (mem_sortDescByDepth res).mp hp
      rcases (hmem p).mp hp' with hp'' | ⟨d, _, h1, _⟩
      · exact hb p hp''
      · exact h1
    have hlen1 : 1 ≤ p.comps.length := by
      obtain ⟨_, _, hlt⟩ := hbp
      omega
    have hdlt : depth p < depth q := depth_lt_of_strictlyBelow hpq hlen1
    have hne : p ≠ q := by
      intro h
      rw [h] at hdlt
      omega
    exact pairwise_before (sortDescByDepth res) p q (sorted_sortDescByDepth res) hp hq hne
      (by omega)
  · intro hmemo
    have hmemo' : orig ∈ res := (mem_sortDescByDepth res).mp hmemo
    rcases (hmem orig).mp hmemo' with h | ⟨d, _, h1, _⟩
    · obtain ⟨_, _, hlt⟩ := hb orig h
      omega
    · obtain ⟨_, _, hlt⟩ := h1
      omega
  · unfold remove_empty_dirs pruneCandidates
    rw [haddp]
    rfl

/-- The C7 hypotheses hold at a concrete input: one affected leaf directory
strictly below the root /r with all its ancestors present. -/
theorem C7_pruner_order_witness :
    ∃ cands,
      pruneCandidates ExPrune.fs ExPrune.root [ExPrune.leaf] = some cands
      ∧ ExPrune.root ∉ cands := by
  obtain ⟨cands, h1, _, _, _, h5, _⟩ :=
    C7_pruner_order ExPrune.fs [ExPrune.leaf] ExPrune.root false
      (by decide)
      (by
        intro d hd k hk1 hk2
        have hd' := List.mem_singleton.mp hd
        subst hd'
        have hk1' : 1 < k := by simpa [ExPrune.root] using hk1
        have hk2' : k < 4 := by simpa [ExPrune.leaf] using hk2
        interval_cases k
        · decide
        · decide)
  exact ⟨cands, h1, h5⟩

/-- C4 amended: a dry run of the engine mutates nothing (it keeps the
filesystem, records no deletion and no affected directory) and its reported
would-delete targets name exactly the same on-disk files as the real run
deletes; but because the dry engine records no affected directories, the
dry pipeline skips directory pruning entirely and reports no directory
candidates, unlike the real run (see the counterexample). -/
theorem C4_amended :
    (∀ (idx : Index) (fs : FS),
        (delete_unused_assets_and_pages idx fs true).fs = fs
        ∧ (delete_unused_assets_and_pages idx fs true).affected_dirs = []
        ∧ (delete_unused_assets_and_pages idx fs true).deleted_pages = []
        ∧ (delete_unused_assets_and_pages idx fs true).deleted_assets = []
        ∧ (∀ p, p ∈ resolvedTargets fs (delete_unused_assets_and_pages idx fs true)
              ↔ p ∈ resolvedTargets fs (delete_unused_assets_and_pages idx fs false)))
    ∧ (∀ (fs : FS) (path : Path), ∃ rd : ExecResult,
        execute fs path true = some rd
        ∧ rd.fs = fs ∧ rd.deleted_dirs = [] ∧ rd.reported_dirs = []) := by
  constructor
  · intro idx fs
    obtain ⟨s1, _, _, _, s5⟩ := sim_engine idx fs
    obtain ⟨k1, k2, k3, k4⟩ := dry_keep_engine_fold idx.asset_to_files
      idx.asset_directive_map idx.file_to_assets ⟨fs, [], [], [], []⟩
    exact ⟨s1, k2, k3, k4, s5⟩
  · intro fs path
    by_cases hrst : (find_rst_files fs path).isEmpty = true
    · refine ⟨⟨fs, [], [], [], [], []⟩, ?_, rfl, rfl, rfl⟩
      simp only [execute]
      rw [if_pos hrst]
    · obtain ⟨k1, k2, _, _⟩ := dry_keep_engine_fold
        (build_asset_index fs (find_rst_files fs path)).asset_to_files
        (build_asset_index fs (find_rst_files fs path)).asset_directive_map
        (build_asset_index fs (find_rst_files fs path)).file_to_assets
        ⟨fs, [], [], [], []⟩

      refine ⟨⟨fs,
        (delete_unused_assets_and_pages (build_asset_index fs (find_rst_files fs path)) fs
          true).deleted_pages,
        (delete_unused_assets_and_pages (build_asset_index fs (find_rst_files fs path)) fs
          true).deleted_assets,
        [],
        (delete_unused_assets_and_pages (build_asset_index fs (find_rst_files fs path)) fs
          true).events,
        []⟩, ?_, rfl, rfl, rfl⟩
      have haff : (delete_unused_assets_and_pages
          (build_asset_index fs (find_rst_files fs path)) fs true).affected_dirs = [] := k2
      have hfs : (delete_unused_assets_and_pages
          (build_asset_index fs (find_rst_files fs path)) fs true).fs = fs := k1
      simp only [execute]
      rw [if_neg hrst, haff]
      simp only [List.isEmpty_nil, if_true, hfs]

/-- C8: within one entry of the real run, the emitted removal events are the
asset removals (targets drawn from the entry's asset set) followed by at
most the page removal of the entry's own document, so every asset removal of
a qualifying document precedes its page removal; an asset or page already
missing when the entry is reached emits nothing (skipped silently), and a
non-candidate entry emits nothing at all. -/
theorem C8_assets_before_page :
    ∀ (a2f : List (Path × List Path)) (dmap : List (Path × String)) (st : DelState)
      (e : Path × List Path),
      ∃ segA segP : List Event,
        (engineStep a2f dmap false st e).events = st.events ++ segA ++ segP
        ∧ (∀ ev ∈ segA, ev.target ∈ e.2 ∧ ∃ nm, ev = Event.rmAsset nm ev.target)
        ∧ (segP = [] ∨ segP = [Event.rmPage e.1])
        ∧ (∀ a : Path, st.fs.pexists a = false → ∀ ev ∈ segA ++ segP, ev.target ≠ a)
        ∧ ((e.2.isEmpty = true ∨ allUnique a2f e.2 = false) → segA = [] ∧ segP = []) := by
  intro a2f dmap st e
  by_cases h1 : e.2.isEmpty = true
  · refine ⟨[], [], ?_, by simp, Or.inl rfl, by simp, fun _ => ⟨rfl, rfl⟩⟩
    unfold engineStep
    simp [h1]
  · by_cases h2 : allUnique a2f e.2 = true
    · have hstep : engineStep a2f dmap false st e = deleteDoc dmap false st e.1 e.2 := by
        unfold engineStep
        simp [h1, h2]
      obtain ⟨segA, ha1, ha2, ha3⟩ := fold_tra_events dmap e.2 st
      obtain ⟨segP, hp1, hp2, hp3⟩ := trp_events (e.2.foldl (tryRemoveAsset dmap false) st) e.1
      refine ⟨segA, segP, ?_, ha2, hp2, ?_, ?_⟩
      · rw [hstep]
        unfold deleteDoc
        rw [hp1, ha1, List.append_assoc]
      · intro x hx ev hev
        rcases List.mem_append.mp hev with hev | hev
        · exact ha3 x hx ev hev
        · have hx1 : (e.2.foldl (tryRemoveAsset dmap false) st).fs.pexists x = false :=
            fold_tra_pexists_false dmap false e.2 st hx
          rcases hp2 with hp | hp
          · rw [hp] at hev
            cases hev
          · rw [hp] at hev
            have hev' := List.mem_singleton.mp hev
            subst hev'
            intro hax
            simp only [Event.target] at hax
            have hx2 : (e.2.foldl (tryRemoveAsset dmap false) st).fs.pexists e.1 = false := by
              rw [hax]
              exact hx1
            have : segP = [] := hp3 hx2
            rw [hp] at this
            cases this
      · intro hcase
        rcases hcase with hcase | hcase
        · exact absurd hcase h1
        · rw [hcase] at h2
          cases h2
    · have hstep : engineStep a2f dmap false st e = st := by
        unfold engineStep
        simp [h1, h2]
      refine ⟨[], [], ?_, by simp, Or.inl rfl, by simp, fun _ => ⟨rfl, rfl⟩⟩
      rw [hstep]
      simp

/-- C9: the claim says a document with an empty expanded asset set is never
deleted by the engine. In ExInc, b.rst's expanded set is empty, yet the
engine removes b.rst from disk as an asset of the qualifying a.rst (it only
stays out of deleted_pages). -/
theorem C9_counterexample :
    dgetD ExInc.idx.file_to_assets ExInc.bRst [] = []
    ∧ (delete_unused_assets_and_pages ExInc.idx ExInc.fs false).deleted_assets
        = [ExInc.bRst]
    ∧ (delete_unused_assets_and_pages ExInc.idx ExInc.fs false).deleted_pages
        = [ExInc.aRst]
    ∧ (delete_unused_assets_and_pages ExInc.idx ExInc.fs false).fs.isFile ExInc.bRst
        = false :=
  ⟨rfl, rfl, rfl, rfl⟩

end SphinxCmd
